import Mathlib

/-!
Verification development for the Smopsys Q-CORE repository.

This file gives a shallow embedding, in Lean 4, of the algorithmic core of the
repository — the quasiperiodic "golden operator" and its bare-metal Taylor-series
math kernel (`src/kernel/golden_operator.c`), the complex-matrix / Lindblad RK4
engine (`src/kernel/lindblad.c`, `src/kernel/lindblad.h`), and the metriplectic
memory manager (`src/MemoryManager.cpp`) — and proves or refutes the frozen
specification claims about them.

Modelling conventions:
* C `double` values are modelled as exact rationals (`ℚ`); decimal literals of the
  source are read exactly.  Floating-point rounding is outside the model.
* C `while` loops are modelled as fuelled structural recursions; the fuel supplied
  by the embedding is proven sufficient, so the functions compute the loop's
  mathematical fixed point.
* C functions that mutate a destination through a pointer are modelled as pure
  functions from the old destination value (plus the other arguments) to the new
  value; local uninitialised temporaries are represented by a fixed `fresh` value
  whose bytes are never read on the paths exercised here.
* `uint32_t` counters are modelled as `ℕ`, with explicit wrap-around where the
  source can underflow.
* `MemoryManager.cpp` calls `sin`, `cos`, `exp` from `<math.h>`, an external
  library that is not part of the repository; the memory-manager model is
  therefore parameterised by a math backend.  Where a single concrete backend is
  needed (for counterexamples), the repository's own Taylor implementations from
  `golden_operator.c` are used.
-/

/-! ## Constants from `golden_operator.h` and `MemoryManager.cpp` -/

/-- PI constant of `golden_operator.h` (3.14159265358979323846), read exactly. -/
def PIq : ℚ := 3.14159265358979323846

/-- TWO_PI constant of `golden_operator.h`. -/
def TWO_PIq : ℚ := 6.28318530717958647692

/-- HALF_PI constant of `golden_operator.h`. -/
def HALF_PIq : ℚ := 1.57079632679489661923

/-- PHI_CONJUGATE constant of `golden_operator.h` (0.6180339887498948). -/
def PHI_CONJq : ℚ := 0.6180339887498948

theorem two_piq_eq : TWO_PIq = 2 * PIq := by norm_num [TWO_PIq, PIq]

theorem half_piq_eq : HALF_PIq = PIq / 2 := by norm_num [HALF_PIq, PIq]

theorem piq_pos : 0 < PIq := by norm_num [PIq]

theorem piq_lt_four : PIq < 4 := by norm_num [PIq]

/-! ## Bare-metal math kernel (`golden_operator.c`)

`normalize_angle` is the pair of `while` loops reducing the argument into
`[-PI, PI]`; we give each loop a fuel that is provably sufficient. -/

/-- Fuel bound for one angle-reduction loop: `⌈x⌉.natAbs + 1` steps suffice to
bring `x` below the loop threshold by repeated `2π` subtractions. -/
def loopFuel (x : ℚ) : ℕ := ⌈x⌉.natAbs + 1

/-- Loop `while (x > PI) x -= TWO_PI` of `normalize_angle`. -/
def normDown : ℕ → ℚ → ℚ
| 0, x => x
| f + 1, x => if x > PIq then normDown f (x - TWO_PIq) else x

/-- Loop `while (x < -PI) x += TWO_PI` of `normalize_angle`. -/
def normUp : ℕ → ℚ → ℚ
| 0, x => x
| f + 1, x => if x < -PIq then normUp f (x + TWO_PIq) else x

/-- Function `normalize_angle` of `golden_operator.c`: reduce into `[-PI, PI]`. -/
def normalize_angle (x : ℚ) : ℚ :=
normUp (loopFuel (-(normDown (loopFuel x) x))) (normDown (loopFuel x) x)

/-- Every rational is at most `c · loopFuel x` for `c ≥ 1`. -/
theorem le_mul_loopFuel {c : ℚ} (hc : 1 ≤ c) (x : ℚ) : x ≤ c * (loopFuel x : ℚ) := by
  rcases le_or_lt x 0 with h | h
  · have : (0 : ℚ) < c * (loopFuel x : ℚ) := by
      have : (0 : ℚ) < (loopFuel x : ℚ) := by
        have : 0 < loopFuel x := Nat.succ_pos _
        exact_mod_cast this
      nlinarith
    linarith
  · have h1 : x ≤ (⌈x⌉ : ℚ) := Int.le_ceil x
    have h2 : (0 : ℤ) ≤ ⌈x⌉ := by
      have := Int.le_ceil x
      by_contra hneg
      push_neg at hneg
      have : (⌈x⌉ : ℚ) < 0 := by exact_mod_cast hneg
      linarith
    have h3 : ((⌈x⌉.natAbs : ℕ) : ℚ) = ((⌈x⌉ : ℤ) : ℚ) := by
      rw [Int.cast_natAbs]
      exact_mod_cast abs_of_nonneg h2
    have h4 : x ≤ (⌈x⌉.natAbs : ℚ) := by rw [h3]; exact h1
    have h5 : (⌈x⌉.natAbs : ℚ) + 1 ≤ c * ((⌈x⌉.natAbs : ℚ) + 1) := by nlinarith [h4]
    have h6 : ((loopFuel x : ℕ) : ℚ) = (⌈x⌉.natAbs : ℚ) + 1 := by
      simp [loopFuel]
    rw [h6]
    linarith

/-- With sufficient fuel, the downward loop ends at or below `PI`. -/
theorem normDown_le (f : ℕ) : ∀ x : ℚ, x ≤ PIq + TWO_PIq * f → normDown f x ≤ PIq := by
  induction f with
  | zero => intro x hx; simpa [normDown] using hx
  | succ f ih =>
    intro x hx
    by_cases h : x > PIq
    · have : x - TWO_PIq ≤ PIq + TWO_PIq * f := by
        push_cast at hx ⊢
        linarith
      simpa [normDown, h] using ih _ this
    · simpa [normDown, h] using not_lt.mp h

/-- The downward loop never goes below `-PI` if it starts at or above it. -/
theorem normDown_ge (f : ℕ) : ∀ x : ℚ, -PIq ≤ x → -PIq ≤ normDown f x := by
  induction f with
  | zero => intro x hx; simpa [normDown] using hx
  | succ f ih =>
    intro x hx
    by_cases h : x > PIq
    · have : -PIq ≤ x - TWO_PIq := by
        rw [two_piq_eq]; linarith
      simpa [normDown, h] using ih _ this
    · simpa [normDown, h] using hx

/-- Inputs already below the lower threshold pass the downward loop unchanged. -/
theorem normDown_of_lt (f : ℕ) (x : ℚ) (hx : x < -PIq) : normDown f x = x := by
  cases f with
  | zero => rfl
  | succ f =>
    have h : ¬ x > PIq := by have := piq_pos; push_neg; linarith
    simp [normDown, h]

/-- With sufficient fuel, the upward loop ends at or above `-PI`. -/
theorem normUp_ge (f : ℕ) : ∀ x : ℚ, -(PIq + TWO_PIq * f) ≤ x → -PIq ≤ normUp f x := by
  induction f with
  | zero =>
    intro x hx
    simpa [normUp] using by push_cast at hx; linarith
  | succ f ih =>
    intro x hx
    by_cases h : x < -PIq
    · have : -(PIq + TWO_PIq * f) ≤ x + TWO_PIq := by
        push_cast at hx ⊢
        linarith
      simpa [normUp, h] using ih _ this
    · simpa [normUp, h] using not_lt.mp h

/-- The upward loop never exceeds `PI` if it starts at or below it. -/
theorem normUp_le (f : ℕ) : ∀ x : ℚ, x ≤ PIq → normUp f x ≤ PIq := by
  induction f with
  | zero => intro x hx; simpa [normUp] using hx
  | succ f ih =>
    intro x hx
    by_cases h : x < -PIq
    · have : x + TWO_PIq ≤ PIq := by
        rw [two_piq_eq]; linarith
      simpa [normUp, h] using ih _ this
    · simpa [normUp, h] using hx

/-- Inputs at or above `-PI` pass the upward loop unchanged. -/
theorem normUp_of_ge (f : ℕ) (x : ℚ) (hx : -PIq ≤ x) : normUp f x = x := by
  cases f with
  | zero => rfl
  | succ f =>
    have h : ¬ x < -PIq := by push_neg; exact hx
    simp [normUp, h]

/-- Function `normalize_angle` always lands in `[-PI, PI]`. -/
theorem normalize_angle_mem (x : ℚ) :
    -PIq ≤ normalize_angle x ∧ normalize_angle x ≤ PIq := by
  unfold normalize_angle
  set d := normDown (loopFuel x) x with hd
  have hdle : d ≤ PIq := by
    apply normDown_le
    have h1 : x ≤ TWO_PIq * (loopFuel x : ℚ) :=
      le_mul_loopFuel (by norm_num [TWO_PIq]) x
    have h2 : (0:ℚ) < PIq := piq_pos
    linarith
  refine ⟨?_, normUp_le _ _ hdle⟩
  apply normUp_ge
  have h1 : -d ≤ TWO_PIq * (loopFuel (-d) : ℚ) :=
    le_mul_loopFuel (by norm_num [TWO_PIq]) (-d)
  have h2 : (0:ℚ) < PIq := piq_pos
  linarith

/-- Inputs already inside `[-PI, PI]` are unchanged by `normalize_angle`. -/
theorem normalize_angle_of_mem (x : ℚ) (h1 : -PIq ≤ x) (h2 : x ≤ PIq) :
    normalize_angle x = x := by
  have hd : normDown (loopFuel x) x = x := by
    cases hf : loopFuel x with
    | zero => rfl
    | succ f =>
      have h : ¬ x > PIq := by push_neg; exact h2
      simp [normDown, h]
  unfold normalize_angle
  rw [hd, normUp_of_ge _ _ h1]

/-! ## Taylor loops of `golden_cos`, `golden_sin`, `golden_exp`, `golden_sqrt` -/

/-- Loop body of `golden_cos`: iterations `n, n+1, ...` with `fuel` steps;
`t` is the current term, `r` the accumulated result. -/
def cosGo (y : ℚ) : ℕ → ℕ → ℚ → ℚ → ℚ
| 0, _, _, r => r
| f + 1, n, t, r =>
  cosGo y f (n + 1) (t * (-y) / ((2 * (n:ℚ) - 1) * (2 * (n:ℚ))))
    (r + t * (-y) / ((2 * (n:ℚ) - 1) * (2 * (n:ℚ))))

/-- Function `golden_cos` of `golden_operator.c`: normalize the angle, then run
the 14-iteration Taylor loop on `x²` starting from term 1, result 1. -/
def golden_cos (x : ℚ) : ℚ :=
cosGo (normalize_angle x * normalize_angle x) 14 1 1 1

/-- Loop body of `golden_sin`. -/
def sinGo (y : ℚ) : ℕ → ℕ → ℚ → ℚ → ℚ
| 0, _, _, r => r
| f + 1, n, t, r =>
  sinGo y f (n + 1) (t * (-y) / ((2 * (n:ℚ)) * (2 * (n:ℚ) + 1)))
    (r + t * (-y) / ((2 * (n:ℚ)) * (2 * (n:ℚ) + 1)))

/-- Function `golden_sin` of `golden_operator.c`. -/
def golden_sin (x : ℚ) : ℚ :=
sinGo (normalize_angle x * normalize_angle x) 14 1 (normalize_angle x) (normalize_angle x)

/-- Loop body of `golden_exp`, with the early `break` when the term magnitude
drops below `1e-10`. -/
def expGo (x : ℚ) : ℕ → ℕ → ℚ → ℚ → ℚ
| 0, _, _, r => r
| f + 1, n, t, r =>
  if |t * x / (n:ℚ)| < 1/10000000000 then r + t * x / (n:ℚ)
  else expGo x f (n + 1) (t * x / (n:ℚ)) (r + t * x / (n:ℚ))

/-- Function `golden_exp` of `golden_operator.c`, with its overflow and
underflow guards. -/
def golden_exp (x : ℚ) : ℚ :=
if x > 20 then 485165195 else if x < -20 then 0 else expGo x 29 1 1 1

/-- Newton-Raphson loop of `golden_sqrt`. -/
def sqrtGo (x : ℚ) : ℕ → ℚ → ℚ
| 0, g => g
| f + 1, g => sqrtGo x f ((g + x / g) / 2)

/-- Function `golden_sqrt` of `golden_operator.c`: 20 Newton iterations from
initial guess `x`, returning 0 on non-positive input. -/
def golden_sqrt (x : ℚ) : ℚ := if x ≤ 0 then 0 else sqrtGo x 20 x

/-- Function `golden_fabs` of `golden_operator.c`. -/
def golden_fabs (x : ℚ) : ℚ := if x < 0 then -x else x

theorem golden_fabs_eq_abs (x : ℚ) : golden_fabs x = |x| := by
  rcases lt_or_le x 0 with h | h
  · simp [golden_fabs, h, abs_of_neg h]
  · simp [golden_fabs, not_lt.mpr h, abs_of_nonneg h]

/-! ## The golden operator itself (`golden_operator.c`) -/

/-- Function `golden_operator_compute_phi` of `golden_operator.c`:
`(-1)^n · golden_cos(π·φ·n)`.  The floating-point source takes no phase
offset; its phase is exactly `π · phi · n`. -/
def golden_operator_compute_phi (n : ℕ) (phi : ℚ) : ℚ :=
(if n % 2 = 1 then (-1 : ℚ) else 1) * golden_cos (PIq * phi * (n:ℚ))

/-- Function `golden_operator_compute`: the default `φ` is `PHI_CONJUGATE`. -/
def golden_operator_compute (n : ℕ) : ℚ := golden_operator_compute_phi n PHI_CONJq

/-! ## Closed forms of the Taylor loops -/

/-- Truncated cosine series in the squared variable: `Σ_{k<15} (-y)^k/(2k)!`. -/
def cosPoly (y : ℚ) : ℚ := ∑ k ∈ Finset.range 15, (-y)^k / ((2*k).factorial : ℚ)

/-- Truncated sine series: `Σ_{k<15} (-z²)^k z/(2k+1)!`. -/
def sinPoly (z : ℚ) : ℚ :=
∑ k ∈ Finset.range 15, (-(z*z))^k * z / ((2*k+1).factorial : ℚ)

theorem cosGo_closed (y : ℚ) :
    ∀ (f n : ℕ), 1 ≤ n →
      cosGo y f n ((-y)^(n-1) / ((2*(n-1)).factorial : ℚ))
        (∑ k ∈ Finset.range n, (-y)^k / ((2*k).factorial : ℚ)) =
      ∑ k ∈ Finset.range (n + f), (-y)^k / ((2*k).factorial : ℚ) := by
  intro f
  induction f with
  | zero => intro n _; simp [cosGo]
  | succ f ih =>
    intro n hn
    obtain ⟨m, rfl⟩ := Nat.exists_eq_add_of_le hn
    have hterm :
        ((-y)^(1 + m - 1) / ((2*(1 + m - 1)).factorial : ℚ)) * (-y) /
          ((2 * ((1 + m : ℕ):ℚ) - 1) * (2 * ((1 + m : ℕ):ℚ))) =
        (-y)^(1 + m + 1 - 1) / ((2*(1 + m + 1 - 1)).factorial : ℚ) := by
      have h1 : (1 + m) - 1 = m := by omega
      have h2 : (1 + m + 1) - 1 = m + 1 := by omega
      rw [h1, h2]
      have hfac : ((2*(m+1)).factorial : ℚ) =
          ((2*m).factorial : ℚ) * ((2*m+1 : ℕ) : ℚ) * ((2*m+2 : ℕ) : ℚ) := by
        have : 2*(m+1) = (2*m+1) + 1 := by omega
        rw [this, Nat.factorial_succ]
        have : 2*m+1 = (2*m) + 1 := by omega
        rw [this, Nat.factorial_succ]
        push_cast
        ring
      have hco : (2 * ((1 + m : ℕ):ℚ) - 1) = ((2*m+1 : ℕ) : ℚ) := by push_cast; ring
      have hco2 : (2 * ((1 + m : ℕ):ℚ)) = ((2*m+2 : ℕ) : ℚ) := by push_cast; ring
      rw [pow_succ, hco, hco2, div_mul_eq_mul_div, div_div]
      congr 1
      rw [hfac]
      ring
    have hsum :
        (∑ k ∈ Finset.range (1 + m), (-y)^k / ((2*k).factorial : ℚ)) +
          ((-y)^(1 + m - 1) / ((2*(1 + m - 1)).factorial : ℚ)) * (-y) /
            ((2 * ((1 + m : ℕ):ℚ) - 1) * (2 * ((1 + m : ℕ):ℚ))) =
        ∑ k ∈ Finset.range (1 + m + 1), (-y)^k / ((2*k).factorial : ℚ) := by
      rw [hterm, Finset.sum_range_succ]
      have h2 : (1 + m + 1) - 1 = 1 + m := by omega
      rw [h2]
    calc cosGo y (f+1) (1+m) ((-y)^(1 + m - 1) / ((2*(1 + m - 1)).factorial : ℚ))
          (∑ k ∈ Finset.range (1+m), (-y)^k / ((2*k).factorial : ℚ))
        = cosGo y f (1+m+1) ((-y)^(1 + m + 1 - 1) / ((2*(1 + m + 1 - 1)).factorial : ℚ))
          (∑ k ∈ Finset.range (1+m+1), (-y)^k / ((2*k).factorial : ℚ)) := by
          rw [cosGo]
          rw [hsum, hterm]
      _ = ∑ k ∈ Finset.range (1 + m + 1 + f), (-y)^k / ((2*k).factorial : ℚ) := by
          exact ih (1+m+1) (by omega)
      _ = ∑ k ∈ Finset.range (1 + m + (f+1)), (-y)^k / ((2*k).factorial : ℚ) := by
          have harr : 1 + m + 1 + f = 1 + m + (f+1) := by omega
          rw [harr]

theorem golden_cos_closed (x : ℚ) :
    golden_cos x = cosPoly (normalize_angle x * normalize_angle x) := by
  unfold golden_cos cosPoly
  have h := cosGo_closed (normalize_angle x * normalize_angle x) 14 1 (le_refl 1)
  simpa using h

theorem sinGo_closed (z : ℚ) :
    ∀ (f n : ℕ), 1 ≤ n →
      sinGo (z*z) f n ((-(z*z))^(n-1) * z / ((2*(n-1)+1).factorial : ℚ))
        (∑ k ∈ Finset.range n, (-(z*z))^k * z / ((2*k+1).factorial : ℚ)) =
      ∑ k ∈ Finset.range (n + f), (-(z*z))^k * z / ((2*k+1).factorial : ℚ) := by
  intro f
  induction f with
  | zero => intro n _; simp [sinGo]
  | succ f ih =>
    intro n hn
    obtain ⟨m, rfl⟩ := Nat.exists_eq_add_of_le hn
    have hterm :
        ((-(z*z))^(1 + m - 1) * z / ((2*(1 + m - 1)+1).factorial : ℚ)) * (-(z*z)) /
          ((2 * ((1 + m : ℕ):ℚ)) * (2 * ((1 + m : ℕ):ℚ) + 1)) =
        (-(z*z))^(1 + m + 1 - 1) * z / ((2*(1 + m + 1 - 1)+1).factorial : ℚ) := by
      have h1 : (1 + m) - 1 = m := by omega
      have h2 : (1 + m + 1) - 1 = m + 1 := by omega
      rw [h1, h2]
      have hfac : ((2*(m+1)+1).factorial : ℚ) =
          ((2*m+1).factorial : ℚ) * ((2*m+2 : ℕ) : ℚ) * ((2*m+3 : ℕ) : ℚ) := by
        have he : 2*(m+1)+1 = (2*m+2) + 1 := by omega
        rw [he, Nat.factorial_succ]
        have he2 : 2*m+2 = (2*m+1) + 1 := by omega
        rw [he2, Nat.factorial_succ]
        push_cast
        ring
      have hco : (2 * ((1 + m : ℕ):ℚ)) = ((2*m+2 : ℕ) : ℚ) := by push_cast; ring
      have hco2 : (2 * ((1 + m : ℕ):ℚ) + 1) = ((2*m+3 : ℕ) : ℚ) := by push_cast; ring
      rw [hco2, hco, div_mul_eq_mul_div, div_div]
      rw [pow_succ]
      have hnum : (-(z*z))^m * z * (-(z*z)) = (-(z*z))^m * (-(z*z)) * z := by ring
      rw [hnum]
      congr 1
      rw [hfac]
      ring
    have hsum :
        (∑ k ∈ Finset.range (1 + m), (-(z*z))^k * z / ((2*k+1).factorial : ℚ)) +
          ((-(z*z))^(1 + m - 1) * z / ((2*(1 + m - 1)+1).factorial : ℚ)) * (-(z*z)) /
            ((2 * ((1 + m : ℕ):ℚ)) * (2 * ((1 + m : ℕ):ℚ) + 1)) =
        ∑ k ∈ Finset.range (1 + m + 1), (-(z*z))^k * z / ((2*k+1).factorial : ℚ) := by
      rw [hterm, Finset.sum_range_succ]
      have h2 : (1 + m + 1) - 1 = 1 + m := by omega
      rw [h2]
    calc sinGo (z*z) (f+1) (1+m)
          ((-(z*z))^(1 + m - 1) * z / ((2*(1 + m - 1)+1).factorial : ℚ))
          (∑ k ∈ Finset.range (1+m), (-(z*z))^k * z / ((2*k+1).factorial : ℚ))
        = sinGo (z*z) f (1+m+1)
          ((-(z*z))^(1 + m + 1 - 1) * z / ((2*(1 + m + 1 - 1)+1).factorial : ℚ))
          (∑ k ∈ Finset.range (1+m+1), (-(z*z))^k * z / ((2*k+1).factorial : ℚ)) := by
          rw [sinGo]
          rw [hsum, hterm]
      _ = ∑ k ∈ Finset.range (1 + m + 1 + f), (-(z*z))^k * z / ((2*k+1).factorial : ℚ) := by
          exact ih (1+m+1) (by omega)
      _ = ∑ k ∈ Finset.range (1 + m + (f+1)), (-(z*z))^k * z / ((2*k+1).factorial : ℚ) := by
          have harr : 1 + m + 1 + f = 1 + m + (f+1) := by omega
          rw [harr]

theorem golden_sin_closed (x : ℚ) :
    golden_sin x = sinPoly (normalize_angle x) := by
  unfold golden_sin sinPoly
  have h := sinGo_closed (normalize_angle x) 14 1 (le_refl 1)
  simpa using h

/-! ## Bounds on the truncated series -/

theorem cosPoly_le_one {y : ℚ} (h0 : 0 ≤ y) (h12 : y ≤ 12) : cosPoly y ≤ 1 := by
  have hexp : cosPoly y = 1 -
      (y*(12 - y)/24 + y^3*(56 - y)/40320 + y^5*(132 - y)/479001600 +
       y^7*(240 - y)/20922789888000 + y^9*(380 - y)/2432902008176640000 +
       y^11*(552 - y)/620448401733239439360000 +
       y^13*(756 - y)/304888344611713860501504000000) := by
    simp [cosPoly, Finset.sum_range_succ, Nat.factorial]
    ring
  have hy12 : 0 ≤ 12 - y := by linarith
  have t1 : 0 ≤ y*(12 - y)/24 := by positivity
  have t2 : 0 ≤ y^3*(56 - y)/40320 := by
    have : 0 ≤ 56 - y := by linarith
    positivity
  have t3 : 0 ≤ y^5*(132 - y)/479001600 := by
    have : 0 ≤ 132 - y := by linarith
    positivity
  have t4 : 0 ≤ y^7*(240 - y)/20922789888000 := by
    have : 0 ≤ 240 - y := by linarith
    positivity
  have t5 : 0 ≤ y^9*(380 - y)/2432902008176640000 := by
    have : 0 ≤ 380 - y := by linarith
    positivity
  have t6 : 0 ≤ y^11*(552 - y)/620448401733239439360000 := by
    have : 0 ≤ 552 - y := by linarith
    positivity
  have t7 : 0 ≤ y^13*(756 - y)/304888344611713860501504000000 := by
    have : 0 ≤ 756 - y := by linarith
    positivity
  rw [hexp]
  linarith

theorem cosPoly_ge_cubic {y : ℚ} (h0 : 0 ≤ y) (h12 : y ≤ 12) :
    1 - y/2 + y^2/24 - y^3/720 ≤ cosPoly y := by
  have hexp : cosPoly y = (1 - y/2 + y^2/24 - y^3/720) +
      (y^4*(90 - y)/3628800 + y^6*(182 - y)/87178291200 +
       y^8*(306 - y)/6402373705728000 + y^10*(462 - y)/1124000727777607680000 +
       y^12*(650 - y)/403291461126605635584000000 +
       y^14/304888344611713860501504000000) := by
    simp [cosPoly, Finset.sum_range_succ, Nat.factorial]
    ring
  have t1 : 0 ≤ y^4*(90 - y)/3628800 := by
    have : 0 ≤ 90 - y := by linarith
    positivity
  have t2 : 0 ≤ y^6*(182 - y)/87178291200 := by
    have : 0 ≤ 182 - y := by linarith
    positivity
  have t3 : 0 ≤ y^8*(306 - y)/6402373705728000 := by
    have : 0 ≤ 306 - y := by linarith
    positivity
  have t4 : 0 ≤ y^10*(462 - y)/1124000727777607680000 := by
    have : 0 ≤ 462 - y := by linarith
    positivity
  have t5 : 0 ≤ y^12*(650 - y)/403291461126605635584000000 := by
    have : 0 ≤ 650 - y := by linarith
    positivity
  have t6 : 0 ≤ y^14/304888344611713860501504000000 := by positivity
  rw [hexp]
  linarith

theorem cosPoly_le_quartic {y : ℚ} (h0 : 0 ≤ y) (h12 : y ≤ 12) :
    cosPoly y ≤ 1 - y/2 + y^2/24 - y^3/720 + y^4/40320 := by
  have hexp : cosPoly y = (1 - y/2 + y^2/24 - y^3/720 + y^4/40320) -
      (y^5*(132 - y)/479001600 + y^7*(240 - y)/20922789888000 +
       y^9*(380 - y)/2432902008176640000 +
       y^11*(552 - y)/620448401733239439360000 +
       y^13*(756 - y)/304888344611713860501504000000) := by
    simp [cosPoly, Finset.sum_range_succ, Nat.factorial]
    ring
  have t1 : 0 ≤ y^5*(132 - y)/479001600 := by
    have : 0 ≤ 132 - y := by linarith
    positivity
  have t2 : 0 ≤ y^7*(240 - y)/20922789888000 := by
    have : 0 ≤ 240 - y := by linarith
    positivity
  have t3 : 0 ≤ y^9*(380 - y)/2432902008176640000 := by
    have : 0 ≤ 380 - y := by linarith
    positivity
  have t4 : 0 ≤ y^11*(552 - y)/620448401733239439360000 := by
    have : 0 ≤ 552 - y := by linarith
    positivity
  have t5 : 0 ≤ y^13*(756 - y)/304888344611713860501504000000 := by
    have : 0 ≤ 756 - y := by linarith
    positivity
  rw [hexp]
  linarith

theorem sinPoly_le {z : ℚ} (h0 : 0 ≤ z) (h6 : z*z ≤ 6) : sinPoly z ≤ z := by
  have hexp : sinPoly z = z -
      (z^3*(20 - z^2)/120 + z^7*(72 - z^2)/362880 +
       z^11*(156 - z^2)/6227020800 + z^15*(272 - z^2)/355687428096000 +
       z^19*(420 - z^2)/51090942171709440000 +
       z^23*(600 - z^2)/15511210043330985984000000 +
       z^27*(812 - z^2)/8841761993739701954543616000000) := by
    simp [sinPoly, Finset.sum_range_succ, Nat.factorial]
    ring
  have hz2 : z^2 ≤ 6 := by nlinarith
  have t1 : 0 ≤ z^3*(20 - z^2)/120 := by
    have : 0 ≤ 20 - z^2 := by linarith
    positivity
  have t2 : 0 ≤ z^7*(72 - z^2)/362880 := by
    have : 0 ≤ 72 - z^2 := by linarith
    positivity
  have t3 : 0 ≤ z^11*(156 - z^2)/6227020800 := by
    have : 0 ≤ 156 - z^2 := by linarith
    positivity
  have t4 : 0 ≤ z^15*(272 - z^2)/355687428096000 := by
    have : 0 ≤ 272 - z^2 := by linarith
    positivity
  have t5 : 0 ≤ z^19*(420 - z^2)/51090942171709440000 := by
    have : 0 ≤ 420 - z^2 := by linarith
    positivity
  have t6 : 0 ≤ z^23*(600 - z^2)/15511210043330985984000000 := by
    have : 0 ≤ 600 - z^2 := by linarith
    positivity
  have t7 : 0 ≤ z^27*(812 - z^2)/8841761993739701954543616000000 := by
    have : 0 ≤ 812 - z^2 := by linarith
    positivity
  rw [hexp]
  linarith

theorem sinPoly_ge_cubic {z : ℚ} (h0 : 0 ≤ z) (h6 : z*z ≤ 6) :
    z - z^3/6 ≤ sinPoly z := by
  have hexp : sinPoly z = (z - z^3/6) +
      (z^5*(42 - z^2)/5040 + z^9*(110 - z^2)/39916800 +
       z^13*(210 - z^2)/1307674368000 + z^17*(342 - z^2)/121645100408832000 +
       z^21*(506 - z^2)/25852016738884976640000 +
       z^25*(702 - z^2)/10888869450418352160768000000 +
       z^29/8841761993739701954543616000000) := by
    simp [sinPoly, Finset.sum_range_succ, Nat.factorial]
    ring
  have hz2 : z^2 ≤ 6 := by nlinarith
  have t1 : 0 ≤ z^5*(42 - z^2)/5040 := by
    have : 0 ≤ 42 - z^2 := by linarith
    positivity
  have t2 : 0 ≤ z^9*(110 - z^2)/39916800 := by
    have : 0 ≤ 110 - z^2 := by linarith
    positivity
  have t3 : 0 ≤ z^13*(210 - z^2)/1307674368000 := by
    have : 0 ≤ 210 - z^2 := by linarith
    positivity
  have t4 : 0 ≤ z^17*(342 - z^2)/121645100408832000 := by
    have : 0 ≤ 342 - z^2 := by linarith
    positivity
  have t5 : 0 ≤ z^21*(506 - z^2)/25852016738884976640000 := by
    have : 0 ≤ 506 - z^2 := by linarith
    positivity
  have t6 : 0 ≤ z^25*(702 - z^2)/10888869450418352160768000000 := by
    have : 0 ≤ 702 - z^2 := by linarith
    positivity
  have t7 : 0 ≤ z^29/8841761993739701954543616000000 := by positivity
  rw [hexp]
  linarith

theorem sinPoly_nonneg {z : ℚ} (h0 : 0 ≤ z) (h6 : z*z ≤ 6) : 0 ≤ sinPoly z := by
  have h := sinPoly_ge_cubic h0 h6
  nlinarith

theorem sinPoly_pos {z : ℚ} (h0 : 0 < z) (h5 : z*z ≤ 5) : 0 < sinPoly z := by
  have h := sinPoly_ge_cubic (le_of_lt h0) (by linarith)
  nlinarith

/-! ## Lower bound of the truncated cosine via the full series

The truncated cosine dominates the true cosine on `[-π, π]` (the discarded tail
is an alternating series with decreasing terms starting with a negative term),
hence it never drops below `-1`. -/

theorem cosPoly_ge_neg_one {x : ℚ} (hx : x^2 ≤ 12) : (-1 : ℚ) ≤ cosPoly (x^2) := by
  have hX2 : ((x:ℝ))^2 ≤ 12 := by exact_mod_cast hx
  set X : ℝ := (x : ℝ) with hXdef
  -- the cosine series and its tail after the first 15 terms
  have hcos : HasSum (fun n : ℕ => (-1)^n * X^(2*n) / ((2*n).factorial : ℝ))
      (Real.cos X) := Real.hasSum_cos X
  set g : ℕ → ℝ := fun m => X^(2*(m+1)) / ((2*(m+1)).factorial : ℝ) with hg
  have hshift : HasSum (fun m : ℕ => (-1)^m * g m) (1 - Real.cos X) := by
    have h1 : HasSum (fun m : ℕ =>
        (-1)^(m+1) * X^(2*(m+1)) / ((2*(m+1)).factorial : ℝ))
        (Real.cos X - ∑ i ∈ Finset.range 1,
          (-1)^i * X^(2*i) / ((2*i).factorial : ℝ)) := by
      exact (hasSum_nat_add_iff' 1).mpr hcos
    have h2 : (∑ i ∈ Finset.range 1,
        (-1)^i * X^(2*i) / ((2*i).factorial : ℝ)) = 1 := by
      simp
    rw [h2] at h1
    have h3 := h1.neg
    have h4 : (fun m : ℕ => -((-1)^(m+1) * X^(2*(m+1)) / ((2*(m+1)).factorial : ℝ)))
        = fun m : ℕ => (-1)^m * g m := by
      funext m
      rw [hg]
      rw [pow_succ]
      ring
    rw [h4] at h3
    have h5 : -(Real.cos X - 1) = 1 - Real.cos X := by ring
    rw [h5] at h3
    exact h3
  -- the tail terms are antitone since X² ≤ 12 ≤ (2m+3)(2m+4)
  have hanti : Antitone g := by
    apply antitone_nat_of_succ_le
    intro m
    show X^(2*(m+1+1)) / ((2*(m+1+1)).factorial : ℝ) ≤
      X^(2*(m+1)) / ((2*(m+1)).factorial : ℝ)
    have hfac : ((2*(m+1+1)).factorial : ℝ) =
        ((2*(m+1)).factorial : ℝ) * ((2*m+3 : ℕ) : ℝ) * ((2*m+4 : ℕ) : ℝ) := by
      have he : 2*(m+1+1) = (2*m+3) + 1 := by omega
      rw [he, Nat.factorial_succ]
      have he2 : 2*m+3 = (2*(m+1)) + 1 := by omega
      rw [he2, Nat.factorial_succ]
      push_cast
      ring
    have hpow : X^(2*(m+1+1)) = X^(2*(m+1)) * X^2 := by
      rw [show 2*(m+1+1) = 2*(m+1)+2 from by omega, pow_add]
    rw [hfac, hpow]
    have hfpos : (0:ℝ) < ((2*(m+1)).factorial : ℝ) := by
      exact_mod_cast Nat.factorial_pos (2*(m+1))
    have hc3 : (0:ℝ) < ((2*m+3 : ℕ) : ℝ) := by
      have hn : 0 < (2*m+3 : ℕ) := by omega
      exact_mod_cast hn
    have hc4 : (0:ℝ) < ((2*m+4 : ℕ) : ℝ) := by
      have hn : 0 < (2*m+4 : ℕ) := by omega
      exact_mod_cast hn
    have hXn : (0:ℝ) ≤ X^(2*(m+1)) := by
      rw [pow_mul]
      positivity
    rw [div_le_div_iff₀ (mul_pos (mul_pos hfpos hc3) hc4) hfpos]
    have h12 : ((2*m+3 : ℕ) : ℝ) * ((2*m+4 : ℕ) : ℝ) ≥ 12 := by
      have : ((2*m+3 : ℕ) : ℝ) ≥ 3 := by
        have : (2*m+3 : ℕ) ≥ 3 := by omega
        exact_mod_cast this
      have h4 : ((2*m+4 : ℕ) : ℝ) ≥ 4 := by
        have : (2*m+4 : ℕ) ≥ 4 := by omega
        exact_mod_cast this
      nlinarith
    nlinarith [sq_nonneg X, mul_nonneg hXn (le_of_lt hfpos)]
  -- partial sums of an antitone alternating series (even count) sit below the sum
  have hbound := hanti.alternating_series_le_tendsto hshift.tendsto_sum_nat 7
  -- identify the partial sum with the truncated polynomial
  have hdecomp : ((cosPoly (x^2) : ℚ) : ℝ) =
      1 - ∑ i ∈ Finset.range 14, (-1)^i * g i := by
    have hcast : ((cosPoly (x^2) : ℚ) : ℝ) =
        ∑ k ∈ Finset.range 15, (-1)^k * X^(2*k) / ((2*k).factorial : ℝ) := by
      rw [cosPoly]
      push_cast
      apply Finset.sum_congr rfl
      intro k _
      rw [neg_pow, ← pow_mul]
    rw [hcast]
    rw [Finset.sum_range_succ']
    have hz : ((-1:ℝ))^0 * X^(2*0) / ((2*0).factorial : ℝ) = 1 := by norm_num
    rw [hz]
    have hfun : ∀ i, (-1:ℝ)^(i+1) * X^(2*(i+1)) / ((2*(i+1)).factorial : ℝ)
        = -((-1)^i * g i) := by
      intro i
      show (-1:ℝ)^(i+1) * X^(2*(i+1)) / ((2*(i+1)).factorial : ℝ)
        = -((-1)^i * (X^(2*(i+1)) / ((2*(i+1)).factorial : ℝ)))
      rw [pow_succ]
      ring
    rw [Finset.sum_congr rfl (fun i _ => hfun i)]
    rw [Finset.sum_neg_distrib]
    ring
  have hcosge : (-1:ℝ) ≤ Real.cos X := Real.neg_one_le_cos X
  have hfinal : (-1:ℝ) ≤ ((cosPoly (x^2) : ℚ) : ℝ) := by
    rw [hdecomp]
    have h14 : (2 * 7) = 14 := by norm_num
    rw [h14] at hbound
    linarith
  exact_mod_cast hfinal

/-! ## Boundedness of the implemented cosine and of the golden operator -/

theorem golden_cos_abs_le_one (x : ℚ) : |golden_cos x| ≤ 1 := by
  rw [golden_cos_closed]
  obtain ⟨h1, h2⟩ := normalize_angle_mem x
  have hsq : normalize_angle x * normalize_angle x = (normalize_angle x)^2 := by ring
  rw [hsq]
  have hpi2 : PIq^2 ≤ 12 := by norm_num [PIq]
  have hz2 : (normalize_angle x)^2 ≤ 12 := by nlinarith
  have hz0 : 0 ≤ (normalize_angle x)^2 := sq_nonneg _
  rw [abs_le]
  exact ⟨cosPoly_ge_neg_one hz2, cosPoly_le_one hz0 hz2⟩

theorem golden_operator_compute_phi_abs_le_one (n : ℕ) (phi : ℚ) :
    |golden_operator_compute_phi n phi| ≤ 1 := by
  unfold golden_operator_compute_phi
  rw [abs_mul]
  rcases Nat.mod_two_eq_zero_or_one n with h | h
  · simp only [h]
    norm_num
    exact golden_cos_abs_le_one _
  · simp only [h]
    norm_num
    exact golden_cos_abs_le_one _

theorem golden_operator_compute_abs_le_one (n : ℕ) :
    |golden_operator_compute n| ≤ 1 :=
  golden_operator_compute_phi_abs_le_one n PHI_CONJq

/-! ## Values of the kernel functions at simple arguments -/

theorem golden_sin_zero : golden_sin 0 = 0 := by
  rw [golden_sin_closed]
  have h := normalize_angle_of_mem 0 (by have := piq_pos; linarith) (le_of_lt piq_pos)
  rw [h]
  simp [sinPoly]

theorem golden_exp_zero : golden_exp 0 = 1 := by
  rw [golden_exp]
  norm_num
  rw [expGo]
  norm_num

/-! ## Bounds on `golden_exp` -/

theorem expGo_ge_acc {x : ℚ} (hx : 0 ≤ x) :
    ∀ (f n : ℕ) (t r : ℚ), 0 ≤ t → r ≤ expGo x f n t r := by
  intro f
  induction f with
  | zero => intro n t r _; simp [expGo]
  | succ f ih =>
    intro n t r ht
    rw [expGo]
    have ht2 : 0 ≤ t * x / (n:ℚ) := by positivity
    by_cases hbr : |t * x / (n:ℚ)| < 1/10000000000
    · rw [if_pos hbr]
      linarith
    · rw [if_neg hbr]
      have := ih (n+1) (t * x / (n:ℚ)) (r + t * x / (n:ℚ)) ht2
      linarith

theorem golden_exp_ge {x : ℚ} (h0 : 0 ≤ x) (h20 : x ≤ 20) :
    1 + x ≤ golden_exp x := by
  rw [golden_exp, if_neg (by linarith), if_neg (by linarith)]
  rw [expGo]
  have hsim : (1:ℚ) * x / ((1:ℕ):ℚ) = x := by norm_num
  rw [hsim]
  by_cases hbr : |x| < 1/10000000000
  · rw [if_pos hbr]
  · rw [if_neg hbr]
    exact expGo_ge_acc h0 _ _ _ _ h0

theorem expGo_le_acc {x : ℚ} (h0 : 0 ≤ x) (h1 : x ≤ 1) :
    ∀ (f n : ℕ) (t r : ℚ), 0 ≤ t → t ≤ 1 → expGo x f n t r ≤ r + f * x := by
  intro f
  induction f with
  | zero => intro n t r _ _; simp [expGo]
  | succ f ih =>
    intro n t r ht ht1
    rw [expGo]
    have ht2a : 0 ≤ t * x / (n:ℚ) := by positivity
    have ht2b : t * x / (n:ℚ) ≤ x := by
      rcases Nat.eq_zero_or_pos n with hn | hn
      · simp [hn]
        positivity
      · have hcast : (1:ℚ) ≤ (n:ℚ) := by exact_mod_cast hn
        have hd : t * x / (n:ℚ) ≤ t * x := by
          apply div_le_self (by positivity) hcast
        have hm : t * x ≤ x := by nlinarith
        linarith
    have ht2c : t * x / (n:ℚ) ≤ 1 := by linarith
    by_cases hbr : |t * x / (n:ℚ)| < 1/10000000000
    · rw [if_pos hbr]
      push_cast
      nlinarith [Nat.cast_nonneg (α := ℚ) f]
    · rw [if_neg hbr]
      have := ih (n+1) (t * x / (n:ℚ)) (r + t * x / (n:ℚ)) ht2a ht2c
      push_cast at this ⊢
      nlinarith
    
theorem golden_exp_le {x : ℚ} (h0 : 0 ≤ x) (h1 : x ≤ 1) :
    golden_exp x ≤ 1 + 29 * x := by
  rw [golden_exp, if_neg (by linarith), if_neg (by linarith)]
  have h := expGo_le_acc h0 h1 29 1 1 1 (by norm_num) (le_refl 1)
  push_cast at h
  linarith

/-! ## The wrap loops at the end of `golden_operator_step` -/

/-- Loop `while (theta < 0) theta += TWO_PI` of `golden_operator_step`. -/
def wrapUp : ℕ → ℚ → ℚ
| 0, x => x
| f + 1, x => if x < 0 then wrapUp f (x + TWO_PIq) else x

/-- Loop `while (theta > TWO_PI) theta -= TWO_PI` of `golden_operator_step`. -/
def wrapDown : ℕ → ℚ → ℚ
| 0, x => x
| f + 1, x => if x > TWO_PIq then wrapDown f (x - TWO_PIq) else x

/-- The angle wrap at the end of `golden_operator_step` (lines 196-198 of
`golden_operator.c`): first the negative loop, then the overflow loop. -/
def golden_wrap (x : ℚ) : ℚ :=
wrapDown (loopFuel (wrapUp (loopFuel (-x)) x)) (wrapUp (loopFuel (-x)) x)

theorem wrapUp_of_nonneg (f : ℕ) (x : ℚ) (h : 0 ≤ x) : wrapUp f x = x := by
  cases f with
  | zero => rfl
  | succ f => simp [wrapUp, not_lt.mpr h]

theorem wrapUp_nonneg (f : ℕ) : ∀ x : ℚ, -(TWO_PIq * f) ≤ x → 0 ≤ wrapUp f x := by
  induction f with
  | zero => intro x hx; simpa [wrapUp] using by push_cast at hx; linarith
  | succ f ih =>
    intro x hx
    by_cases h : x < 0
    · have : -(TWO_PIq * f) ≤ x + TWO_PIq := by push_cast at hx ⊢; linarith
      simpa [wrapUp, h] using ih _ this
    · simpa [wrapUp, h] using not_lt.mp h

theorem wrapUp_le (f : ℕ) : ∀ x : ℚ, x ≤ TWO_PIq → wrapUp f x ≤ TWO_PIq := by
  induction f with
  | zero => intro x hx; simpa [wrapUp] using hx
  | succ f ih =>
    intro x hx
    by_cases h : x < 0
    · have : x + TWO_PIq ≤ TWO_PIq := by linarith
      simpa [wrapUp, h] using ih _ this
    · simpa [wrapUp, h] using hx

theorem wrapDown_of_le (f : ℕ) (x : ℚ) (h : x ≤ TWO_PIq) : wrapDown f x = x := by
  cases f with
  | zero => rfl
  | succ f => simp [wrapDown, not_lt.mpr h]

theorem wrapDown_le (f : ℕ) : ∀ x : ℚ, x ≤ TWO_PIq + TWO_PIq * f → wrapDown f x ≤ TWO_PIq := by
  induction f with
  | zero => intro x hx; simpa [wrapDown] using by push_cast at hx; linarith
  | succ f ih =>
    intro x hx
    by_cases h : x > TWO_PIq
    · have : x - TWO_PIq ≤ TWO_PIq + TWO_PIq * f := by push_cast at hx ⊢; linarith
      simpa [wrapDown, h] using ih _ this
    · simpa [wrapDown, h] using not_lt.mp h

theorem wrapDown_nonneg (f : ℕ) : ∀ x : ℚ, 0 ≤ x → 0 ≤ wrapDown f x := by
  induction f with
  | zero => intro x hx; simpa [wrapDown] using hx
  | succ f ih =>
    intro x hx
    by_cases h : x > TWO_PIq
    · have : 0 ≤ x - TWO_PIq := by norm_num [TWO_PIq] at h ⊢; linarith
      simpa [wrapDown, h] using ih _ this
    · simpa [wrapDown, h] using hx

/-- The golden wrap always lands in the closed interval `[0, 2π]`. -/
theorem golden_wrap_mem (x : ℚ) : 0 ≤ golden_wrap x ∧ golden_wrap x ≤ TWO_PIq := by
  unfold golden_wrap
  set u := wrapUp (loopFuel (-x)) x with hu
  have hu0 : 0 ≤ u := by
    apply wrapUp_nonneg
    have h1 : -x ≤ TWO_PIq * (loopFuel (-x) : ℚ) :=
      le_mul_loopFuel (by norm_num [TWO_PIq]) (-x)
    linarith
  constructor
  · exact wrapDown_nonneg _ _ hu0
  · apply wrapDown_le
    have h1 : u ≤ TWO_PIq * (loopFuel u : ℚ) :=
      le_mul_loopFuel (by norm_num [TWO_PIq]) u
    have : (0:ℚ) < TWO_PIq := by norm_num [TWO_PIq]
    linarith

/-- The golden wrap fixes `2π` itself: the closed right endpoint is attained. -/
theorem golden_wrap_two_pi : golden_wrap TWO_PIq = TWO_PIq := by
  unfold golden_wrap
  rw [wrapUp_of_nonneg _ _ (by norm_num [TWO_PIq])]
  exact wrapDown_of_le _ _ (le_refl _)

/-! ## The global scalar state and its step (`golden_operator.c`) -/

/-- Struct `GoldenState` of `golden_operator.h`. -/
structure GoldenState where
  theta : ℚ
  O_n : ℚ
  L_symp : ℚ
  L_metr : ℚ
  entropy : ℚ
  viscosity : ℚ
  n : ℕ
deriving DecidableEq, Repr

/-- Function `golden_operator_init`. -/
def golden_operator_init : GoldenState :=
{ theta := 0, O_n := 1, L_symp := 0, L_metr := 0, entropy := 0,
  viscosity := 1/10, n := 0 }

/-- Function `golden_operator_compute_lagrangian`: returns `(L_symp, L_metr)`. -/
def golden_operator_compute_lagrangian (s : GoldenState) : ℚ × ℚ :=
((1/2) * (s.O_n * PIq / 100) * (s.O_n * PIq / 100) + -(golden_cos s.theta),
 (1/2) * s.viscosity * (s.theta - PIq) * (s.theta - PIq))

/-- Function `golden_operator_step` of `golden_operator.c`:
increment `n` (a `uint32_t`), recompute the operator, the Lagrangians, the
Hamiltonian and dissipative increments, wrap the angle, then update viscosity
(from the new angle, without any oscillation factor) and entropy. -/
def golden_operator_step (s : GoldenState) : GoldenState :=
  let n2 := (s.n + 1) % 4294967296
  let O := golden_operator_compute n2
  let lag := golden_operator_compute_lagrangian { s with n := n2, O_n := O }
  let dham := O * golden_sin (2 * s.theta) * HALF_PIq / 100
  let ddiss := s.viscosity * (PIq - s.theta) / 50
  let th := golden_wrap (s.theta + dham + ddiss)
  { theta := th, O_n := O, L_symp := lag.1, L_metr := lag.2,
    entropy := (golden_fabs (golden_sin th) + 1/10) / 4,
    viscosity := (1/10) * golden_exp (th / 300), n := n2 }

/-! ## Complex scalars of `lindblad.h`

The source defines its own `Complex` struct over `double`; we mirror it over
`ℚ` and register the arithmetic of `lindblad.h` as a commutative ring. -/

/-- Struct `Complex` of `lindblad.h`. -/
structure Cq where
  re : ℚ
  im : ℚ
deriving DecidableEq, Repr

@[ext] theorem Cq.ext2 {a b : Cq} (hre : a.re = b.re) (him : a.im = b.im) : a = b := by
  cases a; cases b; simp_all

/-- Function `complex_make` of `lindblad.h`. -/
def complex_make (re im : ℚ) : Cq := ⟨re, im⟩

/-- Function `complex_add` of `lindblad.h`. -/
def complex_add (a b : Cq) : Cq := complex_make (a.re + b.re) (a.im + b.im)

/-- Function `complex_sub` of `lindblad.h`. -/
def complex_sub (a b : Cq) : Cq := complex_make (a.re - b.re) (a.im - b.im)

/-- Function `complex_mul` of `lindblad.h`. -/
def complex_mul (a b : Cq) : Cq :=
complex_make (a.re * b.re - a.im * b.im) (a.re * b.im + a.im * b.re)

/-- Function `complex_conj` of `lindblad.h`. -/
def complex_conj (a : Cq) : Cq := complex_make a.re (-a.im)

/-- Function `complex_scale` of `lindblad.h`. -/
def complex_scale (a : Cq) (s : ℚ) : Cq := complex_make (a.re * s) (a.im * s)

instance : Zero Cq := ⟨⟨0, 0⟩⟩
instance : One Cq := ⟨⟨1, 0⟩⟩
instance : Add Cq := ⟨complex_add⟩
instance : Mul Cq := ⟨complex_mul⟩
instance : Neg Cq := ⟨fun a => ⟨-a.re, -a.im⟩⟩
instance : Sub Cq := ⟨complex_sub⟩

@[simp] theorem Cq.add_re (a b : Cq) : (a + b).re = a.re + b.re := rfl
@[simp] theorem Cq.add_im (a b : Cq) : (a + b).im = a.im + b.im := rfl
@[simp] theorem Cq.mul_re (a b : Cq) : (a * b).re = a.re * b.re - a.im * b.im := rfl
@[simp] theorem Cq.mul_im (a b : Cq) : (a * b).im = a.re * b.im + a.im * b.re := rfl
@[simp] theorem Cq.neg_re (a : Cq) : (-a).re = -a.re := rfl
@[simp] theorem Cq.neg_im (a : Cq) : (-a).im = -a.im := rfl
@[simp] theorem Cq.sub_re (a b : Cq) : (a - b).re = a.re - b.re := rfl
@[simp] theorem Cq.sub_im (a b : Cq) : (a - b).im = a.im - b.im := rfl
@[simp] theorem Cq.zero_re : (0 : Cq).re = 0 := rfl
@[simp] theorem Cq.zero_im : (0 : Cq).im = 0 := rfl
@[simp] theorem Cq.one_re : (1 : Cq).re = 1 := rfl
@[simp] theorem Cq.one_im : (1 : Cq).im = 0 := rfl

instance : CommRing Cq where
  add_assoc := by intros; ext <;> simp <;> ring
  zero_add := by intros; ext <;> simp
  add_zero := by intros; ext <;> simp
  add_comm := by intros; ext <;> simp <;> ring
  left_distrib := by intros; ext <;> simp <;> ring
  right_distrib := by intros; ext <;> simp <;> ring
  zero_mul := by intros; ext <;> simp
  mul_zero := by intros; ext <;> simp
  mul_assoc := by intros; ext <;> simp <;> ring
  one_mul := by intros; ext <;> simp
  mul_one := by intros; ext <;> simp
  mul_comm := by intros; ext <;> simp <;> ring
  neg_add_cancel := by intros; ext <;> simp
  sub_eq_add_neg := by intros; ext <;> simp <;> ring
  nsmul := nsmulRec
  zsmul := zsmulRec

theorem complex_sub_eq (a b : Cq) : complex_sub a b = a - b := rfl

theorem complex_add_eq (a b : Cq) : complex_add a b = a + b := rfl

theorem complex_mul_eq (a b : Cq) : complex_mul a b = a * b := rfl

theorem complex_scale_eq_mul (a : Cq) (s : ℚ) :
    complex_scale a s = complex_make s 0 * a := by
  ext <;> simp [complex_scale, complex_make] <;> ring

/-! ## Complex matrices (`lindblad.c`)

Struct `CMatrix` holds a fixed `64×64` backing array plus active `rows`/`cols`.
We model the backing array as a total function; entries outside the active
region keep their previous (or garbage) values, exactly as in the source.
Local uninitialised temporaries are modelled by `fresh` (all-zero garbage);
their uninitialised bytes are never read by the code paths modelled here. -/

/-- Maximum dimension `LINDBLAD_MAX_DIM` of `lindblad.h`. -/
def LINDBLAD_MAX_DIM : ℕ := 64

/-- Maximum jump-operator count `LINDBLAD_MAX_OPS` of `lindblad.h`. -/
def LINDBLAD_MAX_OPS : ℕ := 8

/-- Struct `CMatrix` of `lindblad.h`. -/
structure CMat where
  data : ℕ → ℕ → Cq
  rows : ℕ
  cols : ℕ

/-- A local uninitialised `CMatrix` variable (its contents are never read). -/
def fresh : CMat := ⟨fun _ _ => 0, 0, 0⟩

/-- Function `cmatrix_zero`: zero the active region, set the dimensions. -/
def cmatrix_zero (m : CMat) (rows cols : ℕ) : CMat :=
⟨fun i j => if i < rows ∧ j < cols then 0 else m.data i j, rows, cols⟩

/-- Function `cmatrix_identity`. -/
def cmatrix_identity (m : CMat) (dim : ℕ) : CMat :=
⟨fun i j => if i < dim ∧ j < dim then (if i = j then 1 else 0) else m.data i j,
 dim, dim⟩

/-- Function `cmatrix_copy`: copy the active region of `src` over `dst`. -/
def cmatrix_copy (dst src : CMat) : CMat :=
⟨fun i j => if i < src.rows ∧ j < src.cols then src.data i j else dst.data i j,
 src.rows, src.cols⟩

/-- Function `cmatrix_dagger`: conjugate transpose of the active region. -/
def cmatrix_dagger (dst src : CMat) : CMat :=
⟨fun a b => if a < src.cols ∧ b < src.rows then complex_conj (src.data b a)
  else dst.data a b, src.cols, src.rows⟩

/-- One entry of the matrix product (the inner `k` loop of `cmatrix_mul`). -/
def matProdEntry (A B : CMat) (i j : ℕ) : Cq :=
∑ k ∈ Finset.range A.cols, A.data i k * B.data k j

/-- Function `cmatrix_mul`: the product is accumulated into a local `temp`
matrix, which is only then copied into the destination — so the reads of `A`
and `B` all happen before any write to `C`, even when `C` aliases an operand. -/
def cmatrix_mul (C A B : CMat) : CMat :=
cmatrix_copy C
  ⟨fun i j => if i < A.rows ∧ j < B.cols then matProdEntry A B i j else 0,
   A.rows, B.cols⟩

/-- Function `cmatrix_commutator`: `[A,B] = AB - BA` into the region of `A`. -/
def cmatrix_commutator (C A B : CMat) : CMat :=
⟨fun i j => if i < A.rows ∧ j < A.cols then
    complex_sub ((cmatrix_mul fresh A B).data i j) ((cmatrix_mul fresh B A).data i j)
  else C.data i j, A.rows, A.cols⟩

/-- Function `cmatrix_anticommutator`: `{A,B} = AB + BA`. -/
def cmatrix_anticommutator (C A B : CMat) : CMat :=
⟨fun i j => if i < A.rows ∧ j < A.cols then
    complex_add ((cmatrix_mul fresh A B).data i j) ((cmatrix_mul fresh B A).data i j)
  else C.data i j, A.rows, A.cols⟩

/-- Function `cmatrix_add`. -/
def cmatrix_add (C A B : CMat) : CMat :=
⟨fun i j => if i < A.rows ∧ j < A.cols then complex_add (A.data i j) (B.data i j)
  else C.data i j, A.rows, A.cols⟩

/-- Function `cmatrix_add_scaled`: `C = A + scale · B`. -/
def cmatrix_add_scaled (C A B : CMat) (s : Cq) : CMat :=
⟨fun i j => if i < A.rows ∧ j < A.cols then
    complex_add (A.data i j) (complex_mul s (B.data i j))
  else C.data i j, A.rows, A.cols⟩

/-- Function `cmatrix_scale` (in place). -/
def cmatrix_scale (A : CMat) (s : Cq) : CMat :=
⟨fun i j => if i < A.rows ∧ j < A.cols then complex_mul s (A.data i j)
  else A.data i j, A.rows, A.cols⟩

/-- Function `cmatrix_trace`: sum of the diagonal up to `min rows cols`. -/
def cmatrix_trace (A : CMat) : Cq :=
∑ i ∈ Finset.range (min A.rows A.cols), A.data i i

/-! ## The Lindblad system (`lindblad.c`) -/

/-- Struct `LindbladSystem` of `lindblad.h` (the three bounded operator arrays
are modelled as total functions; indices `≥ LINDBLAD_MAX_OPS` are never used). -/
structure LSys where
  H : CMat
  L_ops : ℕ → CMat
  L_dag : ℕ → CMat
  L_dag_L : ℕ → CMat
  num_ops : ℕ
  dim : ℕ

/-- Function `lindblad_init`. -/
def lindblad_init (s : LSys) (dim : ℕ) : LSys :=
{ s with dim := dim, num_ops := 0, H := cmatrix_zero s.H dim dim }

/-- Function `lindblad_set_hamiltonian`. -/
def lindblad_set_hamiltonian (s : LSys) (H : CMat) : LSys :=
{ s with H := cmatrix_copy s.H H }

/-- Function `lindblad_add_jump_operator` of `lindblad.c`: if the operator list
is full the function silently returns (it is `void`, so no failure value reaches
the caller); otherwise it stores `L` scaled by `golden_sqrt γ`, its adjoint, and
the adjoint-times-self product, and bumps `num_ops`. -/
def lindblad_add_jump_operator (s : LSys) (L : CMat) (gamma : ℚ) : LSys :=
if s.num_ops ≥ LINDBLAD_MAX_OPS then s else
  let idx := s.num_ops
  let op := cmatrix_scale (cmatrix_copy (s.L_ops idx) L)
    (complex_make (golden_sqrt gamma) 0)
  let dag := cmatrix_dagger (s.L_dag idx) op
  let pr := cmatrix_mul (s.L_dag_L idx) dag op
  { s with L_ops := Function.update s.L_ops idx op,
           L_dag := Function.update s.L_dag idx dag,
           L_dag_L := Function.update s.L_dag_L idx pr,
           num_ops := s.num_ops + 1 }

/-- Function `lindblad_compute_terms`: the unitary term `-i[H,ρ]` and the
dissipative sum, written into the two caller-provided destinations. -/
def lindblad_compute_terms (s : LSys) (rho : CMat) (unitary dissip : CMat) :
    CMat × CMat :=
(cmatrix_scale (cmatrix_commutator unitary s.H rho) (complex_make 0 (-1)),
 (List.range s.num_ops).foldl (fun acc k =>
    let Lrho := cmatrix_mul fresh (s.L_ops k) rho
    let LrhoLd := cmatrix_mul fresh Lrho (s.L_dag k)
    let anti := cmatrix_anticommutator fresh (s.L_dag_L k) rho
    let term := cmatrix_add_scaled fresh LrhoLd anti (complex_make (-(1/2)) 0)
    cmatrix_add acc acc term)
  (cmatrix_zero dissip s.dim s.dim))

/-- Function `lindblad_rhs`: `dρ/dt = unitary + dissipative`. -/
def lindblad_rhs (dst : CMat) (s : LSys) (rho : CMat) : CMat :=
cmatrix_add dst (lindblad_compute_terms s rho fresh fresh).1
  (lindblad_compute_terms s rho fresh fresh).2

/-- Function `lindblad_step_rk4` of `lindblad.c`: classical fixed-step RK4 on
the Lindblad right-hand side, writing the new state back into `rho`. -/
def lindblad_step_rk4 (s : LSys) (rho : CMat) (dt : ℚ) : CMat :=
  let half_dt := complex_make (dt * (1/2)) 0
  let sixth_dt := complex_make (dt / 6) 0
  let dt_c := complex_make dt 0
  let k1 := lindblad_rhs fresh s rho
  let k2 := lindblad_rhs fresh s (cmatrix_add_scaled fresh rho k1 half_dt)
  let k3 := lindblad_rhs fresh s
    (cmatrix_add_scaled fresh rho k2 half_dt)
  let k4 := lindblad_rhs fresh s
    (cmatrix_add_scaled fresh rho k3 dt_c)
  let result := cmatrix_copy fresh rho
  cmatrix_copy rho
    ⟨fun i j => if i < s.dim ∧ j < s.dim then
        complex_add (result.data i j)
          (complex_mul sixth_dt
            (complex_add
              (complex_add (k1.data i j) (complex_scale (k2.data i j) 2))
              (complex_add (complex_scale (k3.data i j) 2) (k4.data i j))))
      else result.data i j,
     result.rows, result.cols⟩

/-! ## Trace preservation of the RK4 step with no jump operators -/

/-- Sum of the first `d` diagonal entries of a matrix. -/
def diagSum (M : CMat) (d : ℕ) : Cq := ∑ i ∈ Finset.range d, M.data i i

/-- A matrix whose active region is the `d × d` square. -/
def SqDim (M : CMat) (d : ℕ) : Prop := M.rows = d ∧ M.cols = d

theorem cmatrix_trace_eq_diagSum {M : CMat} {d : ℕ} (h : SqDim M d) :
    cmatrix_trace M = diagSum M d := by
  unfold cmatrix_trace diagSum
  rw [h.1, h.2, min_self]

theorem cmatrix_mul_data_in {C A B : CMat} {i j : ℕ} (hi : i < A.rows)
    (hj : j < B.cols) : (cmatrix_mul C A B).data i j = matProdEntry A B i j := by
  simp [cmatrix_mul, cmatrix_copy, hi, hj]

/-- Trace of the commutator region is zero for square operands. -/
theorem diagSum_commutator {C A B : CMat} {d : ℕ} (hA : SqDim A d) (hB : SqDim B d) :
    diagSum (cmatrix_commutator C A B) d = 0 := by
  unfold diagSum
  have hstep : ∀ i ∈ Finset.range d,
      (cmatrix_commutator C A B).data i i =
        matProdEntry A B i i - matProdEntry B A i i := by
    intro i hi
    rw [Finset.mem_range] at hi
    have hiA : i < A.rows := by rw [hA.1]; exact hi
    have hiA2 : i < A.cols := by rw [hA.2]; exact hi
    have hiB : i < B.rows := by rw [hB.1]; exact hi
    have hiB2 : i < B.cols := by rw [hB.2]; exact hi
    show (if i < A.rows ∧ i < A.cols then _ else _) = _
    rw [if_pos ⟨hiA, hiA2⟩]
    rw [cmatrix_mul_data_in hiA hiB2, cmatrix_mul_data_in hiB hiA2]
    rw [complex_sub_eq]
  rw [Finset.sum_congr rfl hstep]
  rw [Finset.sum_sub_distrib]
  unfold matProdEntry
  rw [hA.2, hB.2]
  rw [Finset.sum_comm]
  have : ∀ k ∈ Finset.range d, ∀ i ∈ Finset.range d,
      A.data i k * B.data k i = B.data k i * A.data i k := by
    intro k _ i _
    exact mul_comm _ _
  rw [sub_eq_zero]
  apply Finset.sum_congr rfl
  intro k _
  apply Finset.sum_congr rfl
  intro i _
  exact mul_comm _ _

/-- The right-hand side has zero diagonal sum when there are no jump operators. -/
theorem diagSum_rhs_zero {s : LSys} {rho dst : CMat} {d : ℕ}
    (h0 : s.num_ops = 0) (hd : s.dim = d) (hH : SqDim s.H d) (hrho : SqDim rho d) :
    diagSum (lindblad_rhs dst s rho) d = 0 := by
  unfold lindblad_rhs lindblad_compute_terms
  rw [h0]
  simp only [List.range_zero, List.foldl_nil]
  set u := cmatrix_scale (cmatrix_commutator fresh s.H rho) (complex_make 0 (-1))
    with hu
  have hcommdim : SqDim (cmatrix_commutator fresh s.H rho) d :=
    ⟨hH.1, hH.2⟩
  have hudim : SqDim u d := ⟨hH.1, hH.2⟩
  unfold diagSum
  have hstep : ∀ i ∈ Finset.range d,
      (cmatrix_add dst u (cmatrix_zero fresh s.dim s.dim)).data i i =
        u.data i i := by
    intro i hi
    rw [Finset.mem_range] at hi
    have hiu1 : i < u.rows := by rw [hudim.1]; exact hi
    have hiu2 : i < u.cols := by rw [hudim.2]; exact hi
    show (if i < u.rows ∧ i < u.cols then _ else _) = _
    rw [if_pos ⟨hiu1, hiu2⟩]
    rw [complex_add_eq]
    have hz : (cmatrix_zero fresh s.dim s.dim).data i i = 0 := by
      simp [cmatrix_zero, fresh, hd, hi]
    rw [hz, add_zero]
  rw [Finset.sum_congr rfl hstep]
  have hstep2 : ∀ i ∈ Finset.range d,
      u.data i i =
        complex_make 0 (-1) * (cmatrix_commutator fresh s.H rho).data i i := by
    intro i hi
    rw [Finset.mem_range] at hi
    rw [hu]
    show (if i < (cmatrix_commutator fresh s.H rho).rows ∧
            i < (cmatrix_commutator fresh s.H rho).cols then _ else _) = _
    have h1 : i < (cmatrix_commutator fresh s.H rho).rows := by
      rw [hcommdim.1]; exact hi
    have h2 : i < (cmatrix_commutator fresh s.H rho).cols := by
      rw [hcommdim.2]; exact hi
    rw [if_pos ⟨h1, h2⟩]
    rw [complex_mul_eq]
  rw [Finset.sum_congr rfl hstep2]
  rw [← Finset.mul_sum]
  have hc := @diagSum_commutator fresh _ _ _ hH hrho
  unfold diagSum at hc
  rw [hc, mul_zero]

theorem lindblad_rhs_dims (dst : CMat) (s : LSys) (rho : CMat) :
    (lindblad_rhs dst s rho).rows = s.H.rows ∧
    (lindblad_rhs dst s rho).cols = s.H.cols := ⟨rfl, rfl⟩

theorem lindblad_step_rk4_dims (s : LSys) (rho : CMat) (dt : ℚ) :
    (lindblad_step_rk4 s rho dt).rows = rho.rows ∧
    (lindblad_step_rk4 s rho dt).cols = rho.cols := ⟨rfl, rfl⟩

/-- One RK4 step preserves the diagonal sum exactly when there are no jump
operators: every stage has zero trace because the commutator is traceless. -/
theorem diagSum_rk4 {s : LSys} {rho : CMat} {d : ℕ} (dt : ℚ)
    (h0 : s.num_ops = 0) (hd : s.dim = d) (hH : SqDim s.H d) (hrho : SqDim rho d) :
    diagSum (lindblad_step_rk4 s rho dt) d = diagSum rho d := by
  unfold lindblad_step_rk4
  set k1 := lindblad_rhs fresh s rho with hk1
  set t1 := cmatrix_add_scaled fresh rho k1 (complex_make (dt * (1/2)) 0) with ht1
  set k2 := lindblad_rhs fresh s t1 with hk2
  set t2 := cmatrix_add_scaled fresh rho k2 (complex_make (dt * (1/2)) 0) with ht2
  set k3 := lindblad_rhs fresh s t2 with hk3
  set t3 := cmatrix_add_scaled fresh rho k3 (complex_make dt 0) with ht3
  set k4 := lindblad_rhs fresh s t3 with hk4
  have ht1d : SqDim t1 d := ⟨hrho.1, hrho.2⟩
  have ht2d : SqDim t2 d := ⟨hrho.1, hrho.2⟩
  have ht3d : SqDim t3 d := ⟨hrho.1, hrho.2⟩
  have hz1 : diagSum k1 d = 0 := diagSum_rhs_zero h0 hd hH hrho
  have hz2 : diagSum k2 d = 0 := diagSum_rhs_zero h0 hd hH ht1d
  have hz3 : diagSum k3 d = 0 := diagSum_rhs_zero h0 hd hH ht2d
  have hz4 : diagSum k4 d = 0 := diagSum_rhs_zero h0 hd hH ht3d
  unfold diagSum
  set result := cmatrix_copy fresh rho with hres
  have hresd : SqDim result d := ⟨hrho.1, hrho.2⟩
  have hstep : ∀ i ∈ Finset.range d,
      (cmatrix_copy rho
        ⟨fun i j => if i < s.dim ∧ j < s.dim then
            complex_add (result.data i j)
              (complex_mul (complex_make (dt / 6) 0)
                (complex_add
                  (complex_add (k1.data i j) (complex_scale (k2.data i j) 2))
                  (complex_add (complex_scale (k3.data i j) 2) (k4.data i j))))
          else result.data i j,
         result.rows, result.cols⟩).data i i =
      rho.data i i + complex_make (dt / 6) 0 *
        ((k1.data i i + complex_make 2 0 * k2.data i i) +
         (complex_make 2 0 * k3.data i i + k4.data i i)) := by
    intro i hi
    rw [Finset.mem_range] at hi
    have hir : i < result.rows := by rw [hresd.1]; exact hi
    have hic : i < result.cols := by rw [hresd.2]; exact hi
    have hid : i < s.dim := by rw [hd]; exact hi
    show (if i < result.rows ∧ i < result.cols then _ else _) = _
    rw [if_pos ⟨hir, hic⟩]
    dsimp only
    rw [if_pos (show i < s.dim ∧ i < s.dim from ⟨hid, hid⟩)]
    have hrho1 : result.data i i = rho.data i i := by
      rw [hres]
      show (if i < rho.rows ∧ i < rho.cols then _ else _) = _
      rw [if_pos ⟨by rw [hrho.1]; exact hi, by rw [hrho.2]; exact hi⟩]
    rw [hrho1, complex_add_eq, complex_mul_eq, complex_add_eq, complex_add_eq,
      complex_add_eq, complex_scale_eq_mul, complex_scale_eq_mul]
  rw [Finset.sum_congr rfl hstep]
  rw [Finset.sum_add_distrib, ← Finset.mul_sum]
  have hsplit :
      (∑ i ∈ Finset.range d,
        ((k1.data i i + complex_make 2 0 * k2.data i i) +
         (complex_make 2 0 * k3.data i i + k4.data i i))) = 0 := by
    rw [Finset.sum_add_distrib, Finset.sum_add_distrib, Finset.sum_add_distrib,
      ← Finset.mul_sum, ← Finset.mul_sum]
    have e1 : (∑ i ∈ Finset.range d, k1.data i i) = 0 := hz1
    have e2 : (∑ i ∈ Finset.range d, k2.data i i) = 0 := hz2
    have e3 : (∑ i ∈ Finset.range d, k3.data i i) = 0 := hz3
    have e4 : (∑ i ∈ Finset.range d, k4.data i i) = 0 := hz4
    rw [e1, e2, e3, e4]
    ring
  rw [hsplit, mul_zero, add_zero]

/-- Iterating the RK4 step any number of times preserves the trace exactly
(no jump operators, square dimensions). -/
theorem trace_rk4_iter {s : LSys} {rho : CMat} {d : ℕ} (dt : ℚ) (N : ℕ)
    (h0 : s.num_ops = 0) (hd : s.dim = d) (hH : SqDim s.H d) (hrho : SqDim rho d) :
    cmatrix_trace ((fun r => lindblad_step_rk4 s r dt)^[N] rho) =
      cmatrix_trace rho := by
  induction N generalizing rho with
  | zero => simp
  | succ N ih =>
    rw [Function.iterate_succ_apply]
    have hdims : SqDim (lindblad_step_rk4 s rho dt) d :=
      ⟨(lindblad_step_rk4_dims s rho dt).1.trans hrho.1,
       (lindblad_step_rk4_dims s rho dt).2.trans hrho.2⟩
    rw [ih hdims]
    rw [cmatrix_trace_eq_diagSum hdims, cmatrix_trace_eq_diagSum hrho]
    exact diagSum_rk4 dt h0 hd hH hrho

/-! ## The metriplectic memory manager (`MemoryManager.cpp`)

The file calls `sin`, `cos`, `exp`, `fabs` from `<math.h>`, which is external to
the repository (the kernel itself ships the Taylor versions above).  The model
is therefore parameterised by a math backend `MathB`; `goldenB` instantiates it
with the repository's own Taylor implementations where a concrete backend is
needed. -/

/-- A backend supplying the `<math.h>` functions used by `MemoryManager.cpp`. -/
structure MathB where
  sin : ℚ → ℚ
  cos : ℚ → ℚ
  exp : ℚ → ℚ

/-- The repository's own math kernel as a backend. -/
def goldenB : MathB := ⟨golden_sin, golden_cos, golden_exp⟩

/-- Constant `PHI` of `MemoryManager.cpp` (0.18 — not the golden ratio!). -/
def MM_PHI : ℚ := 0.18

/-- Constant `THERMAL_BATH_TEMP`. -/
def THERMAL_BATH_TEMP : ℚ := 300

/-- Constant `VISCOSITY_BASE` (`η₀`). -/
def VISCOSITY_BASE : ℚ := 0.1

/-- Constant `MAX_MEMORY_PAGES`. -/
def MAX_MEMORY_PAGES : ℕ := 256

/-- Constant `PAGE_SIZE`. -/
def PAGE_SIZE : ℕ := 4096

/-- Constant `MEMORY_BASE` (`0x100000`). -/
def MEMORY_BASE : ℕ := 1048576

/-- Enum `MemoryState` of `MemoryManager.cpp`. -/
inductive MemoryState
| MEM_EMPTY
| MEM_ALLOCATED
| MEM_THERMAL
| MEM_EVAPORATING
deriving DecidableEq, Repr

open MemoryState

/-- Struct `MetripleticPage`. -/
structure MetripleticPage where
  address : ℕ
  size : ℕ
  theta : ℚ
  O_n : ℚ
  state : MemoryState
  entropy : ℚ
  thermal_viscosity : ℚ
  allocation_time : ℕ
deriving DecidableEq, Repr

/-- Struct `MemoryManager` (the static singleton `memmgr`). -/
structure MemoryManager where
  pages : ℕ → MetripleticPage
  total_pages : ℕ
  allocated_pages : ℕ
  centroid_x : ℚ
  centroid_y : ℚ
  centroid_z : ℚ
  global_theta : ℚ
  total_entropy : ℚ
  total_viscosity : ℚ
  metric_determinant : ℚ
  curvature : ℚ

/-- The set of indices of non-`EMPTY` pages among the first `n`. -/
def occupiedSet (m : MemoryManager) : Finset ℕ :=
(Finset.range m.total_pages).filter (fun i => (m.pages i).state ≠ MEM_EMPTY)

/-- Function `compute_centroid_z`: mean `theta` over non-empty pages, divided
by `2π`; `0` when no page is occupied. -/
def compute_centroid_z (m : MemoryManager) : ℚ :=
if (occupiedSet m).card = 0 then 0
else ((∑ i ∈ occupiedSet m, (m.pages i).theta) / ((occupiedSet m).card : ℚ))
  / (2 * PIq)

/-- Function `compute_thermal_viscosity`:
`η₀ · exp(θ/T) · (1 + 0.5 · sin(π·θ/(2π)))`. -/
def compute_thermal_viscosity (b : MathB) (theta : ℚ) : ℚ :=
VISCOSITY_BASE * b.exp (theta / THERMAL_BATH_TEMP) *
  (1 + (1/2) * b.sin (PIq * theta / (2 * PIq)))

/-- Function `compute_O_n_for_page`: `n · (-1)^n · cos(π·φ·n)` with `φ = 0.18`
and `n` the page index — note the leading factor `n`. -/
def compute_O_n_for_page (b : MathB) (page_idx : ℕ) : ℚ :=
(page_idx : ℚ) * (if page_idx % 2 = 1 then (-1:ℚ) else 1) *
  b.cos (PIq * MM_PHI * (page_idx : ℚ))

/-- Function `project_memory_state`: map `(O_n, θ)` to a lifecycle state. -/
def project_memory_state (O_n theta : ℚ) : MemoryState :=
if theta > 5 * PIq / 4 then MEM_EVAPORATING
else if theta > 3 * PIq / 4 ∧ |O_n| > 3/2 then MEM_THERMAL
else if theta > PIq / 4 ∧ |O_n| > 1/2 then MEM_ALLOCATED
else MEM_EMPTY

/-- Function `metripletic_page_evolution` applied to one page: recompute `O_n`,
advance `θ` by the Hamiltonian and dissipative increments, apply the one-shot
wrap, re-project the lifecycle state, update entropy and viscosity. -/
def metripletic_page_evolution (b : MathB) (total : ℕ) (page_idx : ℕ)
    (p : MetripleticPage) : MetripleticPage :=
  let O := compute_O_n_for_page b page_idx
  let dham := (PIq / 2) * b.sin (2 * p.theta) * O / ((total : ℚ) + 1)
  let eta := compute_thermal_viscosity b p.theta
  let ddiss := eta * (PIq - p.theta) * (1/100)
  let th1 := p.theta + dham + ddiss
  let th2 := if th1 < 0 then th1 + 2 * PIq else th1
  let th3 := if th2 > 2 * PIq then th2 - 2 * PIq else th2
  { p with
    O_n := O
    theta := th3
    state := project_memory_state O th3
    entropy := (|b.sin th3| + 1/10) / 4
    thermal_viscosity := eta }

/-- One comparison of the page-selection scan of `memory_allocate`. -/
def scanStep (m : MemoryManager) (acc : ℕ × ℚ) (i : ℕ) : ℕ × ℚ :=
if (m.pages i).state = MEM_EMPTY ∧ (m.pages i).theta < acc.2
then (i, (m.pages i).theta) else acc

/-- The page-selection scan of `memory_allocate`: fold over all pages keeping
the first `EMPTY` index of strictly smallest `theta` (initial best index `0`,
initial minimum `2π + 1`). -/
def allocate_scan (m : MemoryManager) : ℕ × ℚ :=
(List.range m.total_pages).foldl (scanStep m) ((0 : ℕ), 2 * PIq + 1)

/-- Function `memory_allocate`: fail (returning address `0`) when the occupied
counter has reached `MAX_MEMORY_PAGES`; otherwise take the scan's best index
(whatever page that is), reinitialise it as `MEM_ALLOCATED` with `θ = 0.1`,
bump the counter and return the page's address. -/
def memory_allocate (b : MathB) (m : MemoryManager) (size : ℕ) :
    MemoryManager × ℕ :=
if m.allocated_pages ≥ MAX_MEMORY_PAGES then (m, 0) else
  let best := (allocate_scan m).1
  let p2 : MetripleticPage :=
    { m.pages best with
      address := MEMORY_BASE + best * PAGE_SIZE
      size := if size > PAGE_SIZE then PAGE_SIZE else size
      theta := 1/10
      O_n := compute_O_n_for_page b best
      state := MEM_ALLOCATED
      allocation_time := 0 }
  ({ m with
     pages := Function.update m.pages best p2
     allocated_pages := m.allocated_pages + 1 },
   MEMORY_BASE + best * PAGE_SIZE)

/-- Function `memory_free`: mark the first page with a matching address
`MEM_EVAPORATING`; unknown addresses are a silent no-op. -/
def memory_free (m : MemoryManager) (address : ℕ) : MemoryManager :=
match (List.range m.total_pages).find? (fun i => (m.pages i).address == address)
with
| some i => { m with
    pages := Function.update m.pages i
      { m.pages i with state := MEM_EVAPORATING } }
| none => m

/-- Decrement of the `uint32_t` occupied counter (wraps at zero). -/
def u32_pred (n : ℕ) : ℕ := if n = 0 then 4294967295 else n - 1

/-- One iteration of the per-page loop of `memory_timestep`: evolve non-empty
pages, then force-reset a page that is still `MEM_EVAPORATING` with
`θ > 2π - 0.1` (the `Bool` reports whether the reset — and with it the counter
decrement — fired). -/
def timestep_page (b : MathB) (total : ℕ) (i : ℕ) (p : MetripleticPage) :
    MetripleticPage × Bool :=
  let p1 := if p.state ≠ MEM_EMPTY then metripletic_page_evolution b total i p
    else p
  if p1.state = MEM_EVAPORATING ∧ p1.theta > 2 * PIq - 1/10
  then ({ p1 with state := MEM_EMPTY, theta := 0 }, true)
  else (p1, false)

/-- One iteration of the per-page loop of `memory_timestep` (acting on the
whole manager: it touches only page `i` and possibly the counter). -/
def phase1Step (b : MathB) (mm : MemoryManager) (i : ℕ) : MemoryManager :=
  let r := timestep_page b mm.total_pages i (mm.pages i)
  { mm with
    pages := Function.update mm.pages i r.1
    allocated_pages := if r.2 then u32_pred mm.allocated_pages
      else mm.allocated_pages }

/-- The per-page loop of `memory_timestep`. -/
def memory_timestep_phase1 (b : MathB) (m : MemoryManager) : MemoryManager :=
(List.range m.total_pages).foldl (phase1Step b) m

/-- Function `update_inverted_geometry`: note that the density loop runs over
the page slots `0 ≤ i < allocated_pages` — the counter prefix — regardless of
each slot's lifecycle state. -/
def update_inverted_geometry (b : MathB) (m : MemoryManager) : MemoryManager :=
  let rho_total := ∑ i ∈ Finset.range m.allocated_pages,
    ((m.pages i).size : ℚ) / (PAGE_SIZE : ℚ) * (1 + b.sin (m.pages i).theta)
  let rho_mean := if m.allocated_pages > 0 then
    rho_total / (m.allocated_pages : ℚ) else 0
  let det := 1 + (1/10) * rho_mean
  { m with
    metric_determinant := det
    curvature := (det - 1) /
      (if m.allocated_pages > 0 then (m.allocated_pages : ℚ) else 1) }

/-- Function `memory_timestep`: evolve every page, then recompute the global
observables (the means divide by `allocated_pages`, not by the number of
non-empty pages) and the inverted geometry. -/
def memory_timestep (b : MathB) (m : MemoryManager) (global_time : ℕ) :
    MemoryManager :=
  let m1 := memory_timestep_phase1 b m
  let sumTheta := ∑ i ∈ occupiedSet m1, (m1.pages i).theta
  let sumS := ∑ i ∈ occupiedSet m1, (m1.pages i).entropy
  let sumV := ∑ i ∈ occupiedSet m1, (m1.pages i).thermal_viscosity
  update_inverted_geometry b
  { m1 with
    centroid_z := compute_centroid_z m1
    global_theta := if m1.allocated_pages > 0 then
      sumTheta / (m1.allocated_pages : ℚ) else sumTheta
    total_entropy := sumS
    total_viscosity := if m1.allocated_pages > 0 then
      sumV / (m1.allocated_pages : ℚ) else sumV }

/-- The page produced by `memory_init` for slot `i < 256` (the fields beyond
the explicit loop are zero from the `memset`). -/
def initPage (i : ℕ) : MetripleticPage :=
{ address := MEMORY_BASE + i * PAGE_SIZE, size := 0, theta := 0, O_n := 0,
  state := MEM_EMPTY, entropy := 0, thermal_viscosity := 0,
  allocation_time := 0 }

/-- Function `memory_init`: zero the manager, then initialise all 256 pages
empty at the north pole (array slots beyond the 256 do not exist in C; the
model keeps them all-zero). -/
def memory_init : MemoryManager :=
{ pages := fun i => if i < MAX_MEMORY_PAGES then initPage i else
    { address := 0, size := 0, theta := 0, O_n := 0, state := MEM_EMPTY,
      entropy := 0, thermal_viscosity := 0, allocation_time := 0 },
  total_pages := MAX_MEMORY_PAGES, allocated_pages := 0,
  centroid_x := 0, centroid_y := 0, centroid_z := 0, global_theta := 0,
  total_entropy := 0, total_viscosity := 0, metric_determinant := 0,
  curvature := 0 }

/-! ## Characterisation of the allocation scan -/

theorem scan_foldl_no_empty (m : MemoryManager) :
    ∀ (l : List ℕ) (acc : ℕ × ℚ),
      (∀ i ∈ l, (m.pages i).state ≠ MEM_EMPTY) →
      l.foldl (scanStep m) acc = acc := by
  intro l
  induction l with
  | nil => intro acc _; rfl
  | cons x t ih =>
    intro acc h
    have hx : (m.pages x).state ≠ MEM_EMPTY := h x (by simp)
    have hstep : scanStep m acc x = acc := by
      unfold scanStep
      rw [if_neg]
      intro hc
      exact hx hc.1
    rw [List.foldl_cons, hstep]
    exact ih acc (fun i hi => h i (by simp [hi]))

/-- Fold invariant of the scan: either nothing `EMPTY` has been seen and the
accumulator is the initial pair, or the accumulator holds the lowest-index
minimiser of `theta` among the `EMPTY` pages seen so far. -/
def ScanInv (m : MemoryManager) (n : ℕ) (acc : ℕ × ℚ) : Prop :=
(acc = ((0:ℕ), 2 * PIq + 1) ∧ ∀ i, i < n → (m.pages i).state ≠ MEM_EMPTY) ∨
(acc.1 < n ∧ (m.pages acc.1).state = MEM_EMPTY ∧ acc.2 = (m.pages acc.1).theta ∧
  (∀ i, i < n → (m.pages i).state = MEM_EMPTY → acc.2 ≤ (m.pages i).theta) ∧
  (∀ i, i < acc.1 → (m.pages i).state = MEM_EMPTY → acc.2 < (m.pages i).theta))

theorem scan_inv (m : MemoryManager)
    (hθ : ∀ i, i < m.total_pages → (m.pages i).theta ≤ 2 * PIq) :
    ∀ n, n ≤ m.total_pages →
      ScanInv m n ((List.range n).foldl (scanStep m) ((0:ℕ), 2 * PIq + 1)) := by
  intro n
  induction n with
  | zero =>
    intro _
    left
    exact ⟨rfl, by omega⟩
  | succ n ih =>
    intro hn
    have hn' : n ≤ m.total_pages := by omega
    have hIH := ih hn'
    rw [List.range_succ, List.foldl_append, List.foldl_cons, List.foldl_nil]
    set acc := (List.range n).foldl (scanStep m) ((0:ℕ), 2 * PIq + 1) with hacc
    rcases hIH with ⟨hinit, hno⟩ | ⟨h1, h2, h3, h4, h5⟩
    · by_cases hemp : (m.pages n).state = MEM_EMPTY
      · have hlt : (m.pages n).theta < acc.2 := by
          rw [hinit]
          have := hθ n (by omega)
          simp only
          linarith
        right
        unfold scanStep
        rw [if_pos ⟨hemp, hlt⟩]
        refine ⟨by omega, hemp, rfl, ?_, ?_⟩
        · intro i hi he
          rcases Nat.lt_or_ge i n with h | h
          · exact absurd he (hno i h)
          · have : i = n := by omega
            subst this
            exact le_refl _
        · intro i hi he
          exact absurd he (hno i hi)
      · left
        unfold scanStep
        rw [if_neg (by intro hc; exact hemp hc.1)]
        refine ⟨hinit, ?_⟩
        intro i hi
        rcases Nat.lt_or_ge i n with h | h
        · exact hno i h
        · have : i = n := by omega
          subst this
          exact hemp
    · by_cases hcond : (m.pages n).state = MEM_EMPTY ∧ (m.pages n).theta < acc.2
      · right
        unfold scanStep
        rw [if_pos hcond]
        refine ⟨by omega, hcond.1, rfl, ?_, ?_⟩
        · intro i hi he
          rcases Nat.lt_or_ge i n with h | h
          · have := h4 i h he
            simp only
            linarith [hcond.2]
          · have : i = n := by omega
            subst this
            exact le_refl _
        · intro i hi he
          have := h4 i (by omega) he
          simp only
          linarith [hcond.2]
      · right
        unfold scanStep
        rw [if_neg hcond]
        refine ⟨by omega, h2, h3, ?_, h5⟩
        intro i hi he
        rcases Nat.lt_or_ge i n with h | h
        · exact h4 i h he
        · have : i = n := by omega
          subst this
          push_neg at hcond
          exact le_of_not_lt (by intro hlt; exact absurd hlt (by
            intro hl
            have := hcond he
            linarith))

/-- When some page is `EMPTY` (and all angles are in range), the scan selects
the `EMPTY` page of smallest `theta`, lowest index first. -/
theorem allocate_scan_spec (m : MemoryManager)
    (hθ : ∀ i, i < m.total_pages → (m.pages i).theta ≤ 2 * PIq)
    (hne : ∃ i, i < m.total_pages ∧ (m.pages i).state = MEM_EMPTY) :
    (allocate_scan m).1 < m.total_pages ∧
    (m.pages (allocate_scan m).1).state = MEM_EMPTY ∧
    (allocate_scan m).2 = (m.pages (allocate_scan m).1).theta ∧
    (∀ i, i < m.total_pages → (m.pages i).state = MEM_EMPTY →
      (allocate_scan m).2 ≤ (m.pages i).theta) ∧
    (∀ i, i < (allocate_scan m).1 → (m.pages i).state = MEM_EMPTY →
      (allocate_scan m).2 < (m.pages i).theta) := by
  have h := scan_inv m hθ m.total_pages (le_refl _)
  rcases h with ⟨_, hno⟩ | h
  · obtain ⟨i, hi, he⟩ := hne
    exact absurd he (hno i hi)
  · exact h

/-- When no page is `EMPTY`, the scan returns the initial accumulator, so
`memory_allocate` falls through to page index `0`. -/
theorem allocate_scan_none (m : MemoryManager)
    (h : ∀ i, i < m.total_pages → (m.pages i).state ≠ MEM_EMPTY) :
    allocate_scan m = ((0:ℕ), 2 * PIq + 1) := by
  unfold allocate_scan
  apply scan_foldl_no_empty
  intro i hi
  rw [List.mem_range] at hi
  exact h i hi

/-! ## Characterisation of the tick loop -/

theorem phase1Step_total (b : MathB) (mm : MemoryManager) (i : ℕ) :
    (phase1Step b mm i).total_pages = mm.total_pages := rfl

theorem phase1_foldl_total (b : MathB) :
    ∀ (l : List ℕ) (mm : MemoryManager),
      (l.foldl (phase1Step b) mm).total_pages = mm.total_pages := by
  intro l
  induction l with
  | nil => intro mm; rfl
  | cons x t ih => intro mm; rw [List.foldl_cons, ih]; rfl

theorem memory_timestep_phase1_total (b : MathB) (m : MemoryManager) :
    (memory_timestep_phase1 b m).total_pages = m.total_pages :=
  phase1_foldl_total b _ m

/-- Pointwise form of the tick loop: each iteration touches only its own page,
so the final page array is the pointwise image of `timestep_page`. -/
theorem phase1_foldl_pages (b : MathB) (m : MemoryManager) :
    ∀ (n : ℕ) (j : ℕ),
      ((List.range n).foldl (phase1Step b) m).pages j =
        if j < n then (timestep_page b m.total_pages j (m.pages j)).1
        else m.pages j := by
  intro n
  induction n with
  | zero => intro j; simp
  | succ n ih =>
    intro j
    rw [List.range_succ, List.foldl_append, List.foldl_cons, List.foldl_nil]
    set M := (List.range n).foldl (phase1Step b) m with hM
    have hMt : M.total_pages = m.total_pages := phase1_foldl_total b _ m
    have hMn : M.pages n = m.pages n := by
      rw [hM, ih n]
      simp
    show (Function.update M.pages n
      (timestep_page b M.total_pages n (M.pages n)).1) j = _
    rcases eq_or_ne j n with rfl | hne
    · rw [Function.update_same, hMt, hMn, if_pos (by omega)]
    · rw [Function.update_noteq hne, hM, ih j]
      rcases Nat.lt_or_ge j n with h | h
      · rw [if_pos h, if_pos (by omega)]
      · have : ¬ j < n := by omega
        rw [if_neg this, if_neg (by omega)]

theorem memory_timestep_phase1_pages (b : MathB) (m : MemoryManager) (j : ℕ) :
    (memory_timestep_phase1 b m).pages j =
      if j < m.total_pages then (timestep_page b m.total_pages j (m.pages j)).1
      else m.pages j :=
  phase1_foldl_pages b m m.total_pages j

/-- If no page triggers the forced reset, the tick loop leaves the occupied
counter unchanged. -/
theorem phase1_foldl_alloc (b : MathB) (m : MemoryManager) :
    ∀ (n : ℕ),
      (∀ i, i < n → (timestep_page b m.total_pages i (m.pages i)).2 = false) →
      ((List.range n).foldl (phase1Step b) m).allocated_pages =
        m.allocated_pages := by
  intro n
  induction n with
  | zero => intro _; rfl
  | succ n ih =>
    intro h
    rw [List.range_succ, List.foldl_append, List.foldl_cons, List.foldl_nil]
    set M := (List.range n).foldl (phase1Step b) m with hM
    have hMt : M.total_pages = m.total_pages := phase1_foldl_total b _ m
    have hMn : M.pages n = m.pages n := by
      rw [hM, phase1_foldl_pages b m n n]
      simp
    show (phase1Step b M n).allocated_pages = _
    unfold phase1Step
    rw [hMt, hMn]
    dsimp only
    rw [h n (by omega)]
    simp only [Bool.false_eq_true, if_false]
    rw [hM, ih (fun i hi => h i (by omega))]

theorem memory_timestep_pages (b : MathB) (m : MemoryManager) (t : ℕ) (j : ℕ) :
    (memory_timestep b m t).pages j = (memory_timestep_phase1 b m).pages j := rfl

theorem memory_timestep_total (b : MathB) (m : MemoryManager) (t : ℕ) :
    (memory_timestep b m t).total_pages = m.total_pages :=
  memory_timestep_phase1_total b m

theorem memory_timestep_alloc (b : MathB) (m : MemoryManager) (t : ℕ) :
    (memory_timestep b m t).allocated_pages =
      (memory_timestep_phase1 b m).allocated_pages := rfl

/-! ## Characterisation of `memory_free` -/

theorem find?_append_some {α : Type} {l1 l2 : List α} {p : α → Bool} {a : α}
    (h : l1.find? p = some a) : (l1 ++ l2).find? p = some a := by
  induction l1 with
  | nil => simp [List.find?] at h
  | cons x t ih =>
    rw [List.cons_append]
    cases hpx : p x with
    | true =>
      rw [List.find?] at h ⊢
      rw [hpx] at h ⊢
      exact h
    | false =>
      rw [List.find?] at h ⊢
      rw [hpx] at h ⊢
      exact ih h

theorem find?_append_none {α : Type} {l1 l2 : List α} {p : α → Bool}
    (h : l1.find? p = none) : (l1 ++ l2).find? p = l2.find? p := by
  induction l1 with
  | nil => simp
  | cons x t ih =>
    rw [List.cons_append]
    cases hpx : p x with
    | true =>
      rw [List.find?] at h
      rw [hpx] at h
      simp at h
    | false =>
      rw [List.find?] at h ⊢
      rw [hpx] at h ⊢
      exact ih h

theorem find?_range_some {p : ℕ → Bool} :
    ∀ (n k : ℕ), k < n → p k = true → (∀ j, j < k → p j = false) →
      (List.range n).find? p = some k := by
  intro n
  induction n with
  | zero => intro k hk _ _; omega
  | succ n ih =>
    intro k hk hpk hmin
    rw [List.range_succ]
    rcases Nat.lt_or_ge k n with h | h
    · exact find?_append_some (ih k h hpk hmin)
    · have hkn : k = n := by omega
      subst hkn
      have hnone : (List.range k).find? p = none := by
        rw [List.find?_eq_none]
        intro x hx
        rw [List.mem_range] at hx
        simp [hmin x hx]
      rw [find?_append_none hnone]
      simp [List.find?, hpk]

theorem memory_free_total (m : MemoryManager) (a : ℕ) :
    (memory_free m a).total_pages = m.total_pages := by
  unfold memory_free
  cases h : (List.range m.total_pages).find?
    (fun i => (m.pages i).address == a) with
  | none => rfl
  | some i => rfl

theorem memory_free_alloc (m : MemoryManager) (a : ℕ) :
    (memory_free m a).allocated_pages = m.allocated_pages := by
  unfold memory_free
  cases h : (List.range m.total_pages).find?
    (fun i => (m.pages i).address == a) with
  | none => rfl
  | some i => rfl

/-- Function `memory_free` can only leave a page alone or mark it
`MEM_EVAPORATING`; in particular it never takes a page out of
`MEM_EVAPORATING`. -/
theorem memory_free_pages (m : MemoryManager) (a : ℕ) (j : ℕ) :
    (memory_free m a).pages j = m.pages j ∨
    (memory_free m a).pages j = { m.pages j with state := MEM_EVAPORATING } := by
  unfold memory_free
  cases h : (List.range m.total_pages).find?
    (fun i => (m.pages i).address == a) with
  | none => left; rfl
  | some i =>
    rcases eq_or_ne j i with rfl | hne
    · right
      simp [Function.update_same]
    · left
      simp [Function.update_noteq hne]

/-! ## The state after `k` allocations from a fresh pool -/

/-- The page record produced by a successful allocation of slot `i`. -/
def allocPage (b : MathB) (i : ℕ) (size : ℕ) : MetripleticPage :=
{ address := MEMORY_BASE + i * PAGE_SIZE
  size := if size > PAGE_SIZE then PAGE_SIZE else size
  theta := 1/10
  O_n := compute_O_n_for_page b i
  state := MEM_ALLOCATED
  entropy := 0
  thermal_viscosity := 0
  allocation_time := 0 }

/-- Iterated allocation from the fresh pool with a sequence of request sizes. -/
def allocIter (b : MathB) (szs : ℕ → ℕ) : ℕ → MemoryManager
| 0 => memory_init
| k+1 => (memory_allocate b (allocIter b szs k) (szs k)).1

theorem allocIter_spec (b : MathB) (szs : ℕ → ℕ) :
    ∀ k, k ≤ 256 →
      (allocIter b szs k).total_pages = 256 ∧
      (allocIter b szs k).allocated_pages = k ∧
      (∀ j, (allocIter b szs k).pages j =
        if j < k then allocPage b j (szs j) else memory_init.pages j) := by
  intro k
  induction k with
  | zero =>
    intro _
    refine ⟨rfl, rfl, ?_⟩
    intro j
    rw [if_neg (by omega)]
    rfl
  | succ k ih =>
    intro hk
    obtain ⟨ht, ha, hp⟩ := ih (by omega)
    set S := allocIter b szs k with hS
    have hθ : ∀ i, i < S.total_pages → (S.pages i).theta ≤ 2 * PIq := by
      intro i hi
      rw [hp i]
      rcases Nat.lt_or_ge i k with h | h
      · rw [if_pos h]
        show (1:ℚ)/10 ≤ 2 * PIq
        norm_num [PIq]
      · rw [if_neg (by omega)]
        show (memory_init.pages i).theta ≤ 2 * PIq
        unfold memory_init initPage
        rcases Nat.lt_or_ge i MAX_MEMORY_PAGES with h2 | h2
        · simp only [if_pos h2]
          norm_num [PIq]
        · simp only [if_neg (by omega : ¬ i < MAX_MEMORY_PAGES)]
          norm_num [PIq]
    have hne : ∃ i, i < S.total_pages ∧ (S.pages i).state = MEM_EMPTY := by
      refine ⟨k, by omega, ?_⟩
      rw [hp k, if_neg (by omega)]
      show (memory_init.pages k).state = MEM_EMPTY
      unfold memory_init initPage
      simp only [if_pos (show k < MAX_MEMORY_PAGES by
        unfold MAX_MEMORY_PAGES; omega)]
    obtain ⟨hb1, hb2, hb3, hb4, hb5⟩ := allocate_scan_spec S hθ hne
    -- the selected page is exactly slot `k`
    have hbest : (allocate_scan S).1 = k := by
      by_contra hne2
      rcases Nat.lt_or_ge (allocate_scan S).1 k with h | h
      · have := hp (allocate_scan S).1
        rw [if_pos h] at this
        rw [this] at hb2
        exact absurd hb2 (by simp [allocPage])
      · have hklt : k < (allocate_scan S).1 := by omega
        have hkemp : (S.pages k).state = MEM_EMPTY := by
          rw [hp k, if_neg (by omega)]
          show (memory_init.pages k).state = MEM_EMPTY
          unfold memory_init initPage
          simp only [if_pos (show k < MAX_MEMORY_PAGES by
            unfold MAX_MEMORY_PAGES; omega)]
        have hstrict := hb5 k hklt hkemp
        have hbemp := hb2
        -- the minimiser's theta and slot k's theta are both 0
        have hkθ : (S.pages k).theta = 0 := by
          rw [hp k, if_neg (by omega)]
          show (memory_init.pages k).theta = 0
          unfold memory_init initPage
          rcases Nat.lt_or_ge k MAX_MEMORY_PAGES with h2 | h2
          · simp only [if_pos h2]
          · simp only [if_neg (by omega : ¬ k < MAX_MEMORY_PAGES)]
        have hbθ : (S.pages (allocate_scan S).1).theta = 0 := by
          rw [hp (allocate_scan S).1, if_neg (by omega)]
          show (memory_init.pages (allocate_scan S).1).theta = 0
          unfold memory_init initPage
          rcases Nat.lt_or_ge (allocate_scan S).1 MAX_MEMORY_PAGES with h2 | h2
          · simp only [if_pos h2]
          · simp only [if_neg (by omega :
              ¬ (allocate_scan S).1 < MAX_MEMORY_PAGES)]
        rw [hb3, hbθ, hkθ] at hstrict
        exact absurd hstrict (by norm_num)
    have hguard : ¬ S.allocated_pages ≥ MAX_MEMORY_PAGES := by
      rw [ha]
      unfold MAX_MEMORY_PAGES
      omega
    refine ⟨?_, ?_, ?_⟩
    · show ((memory_allocate b S (szs k)).1).total_pages = 256
      unfold memory_allocate
      rw [if_neg hguard]
      exact ht
    · show ((memory_allocate b S (szs k)).1).allocated_pages = k + 1
      unfold memory_allocate
      rw [if_neg hguard]
      show S.allocated_pages + 1 = k + 1
      rw [ha]
    · intro j
      show ((memory_allocate b S (szs k)).1).pages j = _
      unfold memory_allocate
      rw [if_neg hguard]
      show Function.update S.pages (allocate_scan S).1 _ j = _
      rw [hbest]
      rcases eq_or_ne j k with rfl | hne2
      · rw [Function.update_same, if_pos (show j < j + 1 by omega)]
        have hpk : S.pages j = memory_init.pages j := by
          rw [hp j, if_neg (by omega)]
        rw [hpk]
        show { memory_init.pages j with
          address := MEMORY_BASE + j * PAGE_SIZE
          size := if szs j > PAGE_SIZE then PAGE_SIZE else szs j
          theta := 1/10
          O_n := compute_O_n_for_page b j
          state := MEM_ALLOCATED
          allocation_time := 0 } = allocPage b j (szs j)
        unfold memory_init initPage allocPage
        simp only [if_pos (show j < MAX_MEMORY_PAGES by
          unfold MAX_MEMORY_PAGES; omega)]
      · rw [Function.update_noteq hne2, hp j]
        rcases Nat.lt_or_ge j k with h | h
        · rw [if_pos h, if_pos (by omega)]
        · rw [if_neg (by omega), if_neg (by omega)]

/-- The `(k+1)`-st allocation from a fresh pool (for `k < 256`) returns the
address of slot `k`, which is nonzero. -/
theorem allocIter_succeeds (b : MathB) (szs : ℕ → ℕ) (k : ℕ) (hk : k < 256) :
    (memory_allocate b (allocIter b szs k) (szs k)).2 =
      MEMORY_BASE + k * PAGE_SIZE := by
  obtain ⟨ht, ha, hp⟩ := allocIter_spec b szs k (by omega)
  set S := allocIter b szs k with hS
  have hθ : ∀ i, i < S.total_pages → (S.pages i).theta ≤ 2 * PIq := by
    intro i hi
    rw [hp i]
    rcases Nat.lt_or_ge i k with h | h
    · rw [if_pos h]
      show (1:ℚ)/10 ≤ 2 * PIq
      norm_num [PIq]
    · rw [if_neg (by omega)]
      show (memory_init.pages i).theta ≤ 2 * PIq
      unfold memory_init initPage
      rcases Nat.lt_or_ge i MAX_MEMORY_PAGES with h2 | h2
      · simp only [if_pos h2]
        norm_num [PIq]
      · simp only [if_neg (by omega : ¬ i < MAX_MEMORY_PAGES)]
        norm_num [PIq]
  have hne : ∃ i, i < S.total_pages ∧ (S.pages i).state = MEM_EMPTY := by
    refine ⟨k, by omega, ?_⟩
    rw [hp k, if_neg (by omega)]
    show (memory_init.pages k).state = MEM_EMPTY
    unfold memory_init initPage
    simp only [if_pos (show k < MAX_MEMORY_PAGES by
      unfold MAX_MEMORY_PAGES; omega)]
  obtain ⟨hb1, hb2, hb3, hb4, hb5⟩ := allocate_scan_spec S hθ hne
  have hbest : (allocate_scan S).1 = k := by
    by_contra hne2
    rcases Nat.lt_or_ge (allocate_scan S).1 k with h | h
    · have := hp (allocate_scan S).1
      rw [if_pos h] at this
      rw [this] at hb2
      exact absurd hb2 (by simp [allocPage])
    · have hklt : k < (allocate_scan S).1 := by omega
      have hkemp : (S.pages k).state = MEM_EMPTY := by
        rw [hp k, if_neg (by omega)]
        show (memory_init.pages k).state = MEM_EMPTY
        unfold memory_init initPage
        simp only [if_pos (show k < MAX_MEMORY_PAGES by
          unfold MAX_MEMORY_PAGES; omega)]
      have hstrict := hb5 k hklt hkemp
      have hkθ : (S.pages k).theta = 0 := by
        rw [hp k, if_neg (by omega)]
        show (memory_init.pages k).theta = 0
        unfold memory_init initPage
        simp only [if_pos (show k < MAX_MEMORY_PAGES by
          unfold MAX_MEMORY_PAGES; omega)]
      have hbθ : (S.pages (allocate_scan S).1).theta = 0 := by
        rw [hp (allocate_scan S).1, if_neg (by omega)]
        show (memory_init.pages (allocate_scan S).1).theta = 0
        unfold memory_init initPage
        rcases Nat.lt_or_ge (allocate_scan S).1 MAX_MEMORY_PAGES with h2 | h2
        · simp only [if_pos h2]
        · simp only [if_neg (by omega :
            ¬ (allocate_scan S).1 < MAX_MEMORY_PAGES)]
      rw [hb3, hbθ, hkθ] at hstrict
      exact absurd hstrict (by norm_num)
  have hguard : ¬ S.allocated_pages ≥ MAX_MEMORY_PAGES := by
    rw [ha]
    unfold MAX_MEMORY_PAGES
    omega
  unfold memory_allocate
  rw [if_neg hguard, hbest]

/-- The 257-th allocation fails: it returns address `0` and leaves the pool
unchanged. -/
theorem allocIter_fails (b : MathB) (szs : ℕ → ℕ) (sz : ℕ) :
    memory_allocate b (allocIter b szs 256) sz = (allocIter b szs 256, 0) := by
  obtain ⟨_, ha, _⟩ := allocIter_spec b szs 256 (le_refl _)
  unfold memory_allocate
  rw [if_pos]
  rw [ha]
  unfold MAX_MEMORY_PAGES
  omega

/-! ## The state after freeing every page address of a fresh pool -/

/-- A fresh page marked `MEM_EVAPORATING` by `memory_free`. -/
def evapPage (i : ℕ) : MetripleticPage :=
{ initPage i with state := MEM_EVAPORATING }

/-- Free the addresses of slots `0, 1, …, k-1` of the fresh pool in turn. -/
def freeIter : ℕ → MemoryManager
| 0 => memory_init
| k+1 => memory_free (freeIter k) (MEMORY_BASE + k * PAGE_SIZE)

theorem freeIter_spec :
    ∀ k, k ≤ 256 →
      (freeIter k).total_pages = 256 ∧
      (freeIter k).allocated_pages = 0 ∧
      (∀ j, (freeIter k).pages j =
        if j < k then evapPage j else memory_init.pages j) := by
  intro k
  induction k with
  | zero =>
    intro _
    refine ⟨rfl, rfl, ?_⟩
    intro j
    rw [if_neg (by omega)]
    rfl
  | succ k ih =>
    intro hk
    obtain ⟨ht, ha, hp⟩ := ih (by omega)
    set S := freeIter k with hS
    have haddr : ∀ j, j < 256 → (S.pages j).address = MEMORY_BASE + j * PAGE_SIZE := by
      intro j hj
      rw [hp j]
      rcases Nat.lt_or_ge j k with h | h
      · rw [if_pos h]
        rfl
      · rw [if_neg (by omega)]
        show (memory_init.pages j).address = _
        unfold memory_init initPage
        simp only [if_pos (show j < MAX_MEMORY_PAGES by
          unfold MAX_MEMORY_PAGES; omega)]
    have hfind : (List.range S.total_pages).find?
        (fun i => (S.pages i).address == MEMORY_BASE + k * PAGE_SIZE) = some k := by
      rw [ht]
      apply find?_range_some 256 k (by omega)
      · rw [beq_iff_eq]
        exact haddr k (by omega)
      · intro j hj
        rw [Bool.eq_false_iff, ne_eq, beq_iff_eq]
        rw [haddr j (by omega)]
        unfold PAGE_SIZE
        omega
    refine ⟨?_, ?_, ?_⟩
    · show (memory_free S (MEMORY_BASE + k * PAGE_SIZE)).total_pages = 256
      rw [memory_free_total, ht]
    · show (memory_free S (MEMORY_BASE + k * PAGE_SIZE)).allocated_pages = 0
      rw [memory_free_alloc, ha]
    · intro j
      show (memory_free S (MEMORY_BASE + k * PAGE_SIZE)).pages j = _
      unfold memory_free
      rw [hfind]
      rcases eq_or_ne j k with rfl | hne
      · dsimp only
        rw [Function.update_same, if_pos (by omega)]
        have := hp j
        rw [if_neg (by omega)] at this
        rw [this]
        show { memory_init.pages j with state := MEM_EVAPORATING } = evapPage j
        unfold memory_init evapPage initPage
        simp only [if_pos (show j < MAX_MEMORY_PAGES by
          unfold MAX_MEMORY_PAGES; omega)]
      · dsimp only
        rw [Function.update_noteq hne, hp j]
        rcases Nat.lt_or_ge j k with h | h
        · rw [if_pos h, if_pos (by omega)]
        · rw [if_neg (by omega), if_neg (by omega)]

/-! ## Claim theorems -/

/-- C3: for every step index `n` and phase constant `phi`, the operator
function returns `parity(n) · cos(π·phi·n)` — the floating-point source takes
no offset parameter, i.e. it computes the spec formula at offset `delta = 0` —
and the result of the formula is bounded by `1` in absolute value for every
offset `delta`, the range-reduced Taylor cosine included. -/
theorem C3_operator_formula_and_bound (n : ℕ) (phi delta : ℚ) :
    golden_operator_compute_phi n phi =
      (if n % 2 = 0 then (1:ℚ) else -1) * golden_cos (PIq * phi * (n:ℚ)) ∧
    |(if n % 2 = 0 then (1:ℚ) else -1) *
      golden_cos (PIq * phi * (n:ℚ) + delta)| ≤ 1 ∧
    |golden_operator_compute_phi n phi| ≤ 1 := by
  refine ⟨?_, ?_, golden_operator_compute_phi_abs_le_one n phi⟩
  · unfold golden_operator_compute_phi
    rcases Nat.mod_two_eq_zero_or_one n with h | h
    · rw [h]
      norm_num
    · rw [h]
      norm_num
  · rw [abs_mul]
    rcases Nat.mod_two_eq_zero_or_one n with h | h
    · rw [h]
      norm_num
      exact golden_cos_abs_le_one _
    · rw [h]
      norm_num
      exact golden_cos_abs_le_one _

/-- C7: with no jump operators the RK4 step applied to a `2×2` system at
`dt = 0.01` preserves the trace of the density matrix — in the exact-rational
model it preserves it exactly, so after any `N ≥ 1000` steps the drift is
(well) within `1e-6`.  The real-eigenvalue hypothesis on the Hamiltonian is
part of the claim but is not needed: the commutator is traceless for every
Hamiltonian. -/
theorem C7_rk4_trace_preserved (s : LSys) (rho : CMat) (N : ℕ)
    (h0 : s.num_ops = 0) (hd : s.dim = 2) (hH : SqDim s.H 2) (hrho : SqDim rho 2)
    (heig : ∃ l1 l2 : ℚ, s.H.data 0 0 + s.H.data 1 1 = complex_make (l1 + l2) 0 ∧
      s.H.data 0 0 * s.H.data 1 1 - s.H.data 0 1 * s.H.data 1 0 =
        complex_make (l1 * l2) 0)
    (hN : 1000 ≤ N) :
    cmatrix_trace ((fun r => lindblad_step_rk4 s r (1/100))^[N] rho) =
      cmatrix_trace rho ∧
    |(cmatrix_trace ((fun r => lindblad_step_rk4 s r (1/100))^[N] rho)).re -
      (cmatrix_trace rho).re| ≤ 1/1000000 ∧
    |(cmatrix_trace ((fun r => lindblad_step_rk4 s r (1/100))^[N] rho)).im -
      (cmatrix_trace rho).im| ≤ 1/1000000 := by
  have h := @trace_rk4_iter s rho _ (1/100) N h0 hd hH hrho
  refine ⟨h, ?_, ?_⟩
  · rw [h]
    norm_num
  · rw [h]
    norm_num

/-- Concrete diagonal Hamiltonian with eigenvalues `1` and `2`. -/
def H2wit : CMat :=
⟨fun i j => if i = 0 ∧ j = 0 then complex_make 1 0
  else if i = 1 ∧ j = 1 then complex_make 2 0 else 0, 2, 2⟩

/-- Concrete pure density matrix on the first basis vector. -/
def rho2wit : CMat :=
⟨fun i j => if i = 0 ∧ j = 0 then complex_make 1 0 else 0, 2, 2⟩

/-- Concrete `2×2` Lindblad system with no jump operators. -/
def sys2wit : LSys :=
⟨H2wit, fun _ => fresh, fun _ => fresh, fun _ => fresh, 0, 2⟩

/-- Witness for C7 at a concrete system, density matrix and step count. -/
theorem C7_rk4_trace_preserved_witness :
    cmatrix_trace ((fun r => lindblad_step_rk4 sys2wit r (1/100))^[1000] rho2wit)
      = cmatrix_trace rho2wit :=
  (C7_rk4_trace_preserved sys2wit rho2wit 1000 rfl rfl ⟨rfl, rfl⟩ ⟨rfl, rfl⟩
    ⟨1, 2, by ext <;> simp [sys2wit, H2wit, complex_make] <;> norm_num,
      by ext <;> simp [sys2wit, H2wit, complex_make] <;> norm_num⟩
    (by norm_num)).1

/-- A heap of named matrices; `cmatrix_mul` called on heap cells. -/
def mulStore (σ : ℕ → CMat) (c a b : ℕ) : ℕ → CMat :=
Function.update σ c (cmatrix_mul (σ c) (σ a) (σ b))

/-- C10: `cmatrix_mul` accumulates the product into an internal temporary and
only then copies it into the destination, so the destination cell holds the
mathematically correct product of the *original* operands even when the
destination is the same heap cell as an operand (`c = a` or `c = b`). -/
theorem C10_mul_aliasing_safe (σ : ℕ → CMat) (c a b : ℕ)
    (hdim : (σ a).cols = (σ b).rows)
    (hra : (σ a).rows ≤ LINDBLAD_MAX_DIM) (hca : (σ a).cols ≤ LINDBLAD_MAX_DIM)
    (hcb : (σ b).cols ≤ LINDBLAD_MAX_DIM) :
    ((mulStore σ c a b) c).rows = (σ a).rows ∧
    ((mulStore σ c a b) c).cols = (σ b).cols ∧
    (∀ i j, i < (σ a).rows → j < (σ b).cols →
      ((mulStore σ c a b) c).data i j =
        ∑ k ∈ Finset.range (σ a).cols, (σ a).data i k * (σ b).data k j) := by
  unfold mulStore
  rw [Function.update_same]
  refine ⟨rfl, rfl, ?_⟩
  intro i j hi hj
  rw [cmatrix_mul_data_in hi hj]
  rfl

/-- Witness for C10 with the destination aliasing the left operand
(`c = a = 0`): the stored result is the product of the original contents. -/
theorem C10_mul_aliasing_safe_witness :
    ((mulStore (fun n => if n = 0 then ⟨fun _ _ => complex_make 2 0, 1, 1⟩
        else ⟨fun _ _ => complex_make 3 0, 1, 1⟩) 0 0 1) 0).data 0 0 =
      ∑ k ∈ Finset.range 1,
        complex_make 2 0 * complex_make 3 0 := by
  have h := (C10_mul_aliasing_safe
    (fun n => if n = 0 then ⟨fun _ _ => complex_make 2 0, 1, 1⟩
      else ⟨fun _ _ => complex_make 3 0, 1, 1⟩) 0 0 1
    (by norm_num) (by norm_num [LINDBLAD_MAX_DIM])
    (by norm_num [LINDBLAD_MAX_DIM]) (by norm_num [LINDBLAD_MAX_DIM])).2.2
    0 0 (by norm_num) (by norm_num)
  simpa using h

/-- A Lindblad system whose jump-operator list is at capacity. -/
def fullSys : LSys :=
⟨fresh, fun _ => fresh, fun _ => fresh, fun _ => fresh, 8, 2⟩

/-- C9 counterexample: at capacity, `lindblad_add_jump_operator` silently
returns with the system unchanged — the function is `void`, so there is no
"distinguishable failure value" reported to the caller, contrary to the
claim. -/
theorem C9_counterexample :
    fullSys.num_ops = LINDBLAD_MAX_OPS ∧
    lindblad_add_jump_operator fullSys fresh 1 = fullSys := by
  constructor
  · rfl
  · unfold lindblad_add_jump_operator
    rw [if_pos]
    show fullSys.num_ops ≥ LINDBLAD_MAX_OPS
    norm_num [fullSys, LINDBLAD_MAX_OPS]

/-- C9 amended: below capacity, `addJumpOperator` stores the operator scaled by
the implementation's 20-iteration Newton approximation of `√γ`, together with
its adjoint and the adjoint-times-self product, all mutually consistent; at
capacity it silently returns, leaving the system unchanged (no failure value is
reported — the source function returns `void`). -/
theorem C9_add_jump_operator_amended (s : LSys) (L : CMat) (gamma : ℚ) :
    (s.num_ops ≥ LINDBLAD_MAX_OPS → lindblad_add_jump_operator s L gamma = s) ∧
    (s.num_ops < LINDBLAD_MAX_OPS →
      (lindblad_add_jump_operator s L gamma).num_ops = s.num_ops + 1 ∧
      ((lindblad_add_jump_operator s L gamma).L_ops s.num_ops).rows = L.rows ∧
      ((lindblad_add_jump_operator s L gamma).L_ops s.num_ops).cols = L.cols ∧
      (∀ i j, i < L.rows → j < L.cols →
        ((lindblad_add_jump_operator s L gamma).L_ops s.num_ops).data i j =
          complex_make (golden_sqrt gamma) 0 * L.data i j) ∧
      ((lindblad_add_jump_operator s L gamma).L_dag s.num_ops).rows = L.cols ∧
      ((lindblad_add_jump_operator s L gamma).L_dag s.num_ops).cols = L.rows ∧
      (∀ i j, i < L.cols → j < L.rows →
        ((lindblad_add_jump_operator s L gamma).L_dag s.num_ops).data i j =
          complex_conj
            (((lindblad_add_jump_operator s L gamma).L_ops s.num_ops).data j i)) ∧
      (∀ i j, i < L.cols → j < L.cols →
        ((lindblad_add_jump_operator s L gamma).L_dag_L s.num_ops).data i j =
          ∑ k ∈ Finset.range L.rows,
            ((lindblad_add_jump_operator s L gamma).L_dag s.num_ops).data i k *
            ((lindblad_add_jump_operator s L gamma).L_ops s.num_ops).data k j)) := by
  constructor
  · intro h
    unfold lindblad_add_jump_operator
    rw [if_pos h]
  · intro h
    have hneg : ¬ s.num_ops ≥ LINDBLAD_MAX_OPS := by omega
    unfold lindblad_add_jump_operator
    rw [if_neg hneg]
    dsimp only
    rw [Function.update_same, Function.update_same, Function.update_same]
    set op := cmatrix_scale (cmatrix_copy (s.L_ops s.num_ops) L)
      (complex_make (golden_sqrt gamma) 0) with hop
    have hoprows : op.rows = L.rows := rfl
    have hopcols : op.cols = L.cols := rfl
    have hopdata : ∀ i j, i < L.rows → j < L.cols →
        op.data i j = complex_make (golden_sqrt gamma) 0 * L.data i j := by
      intro i j hi hj
      rw [hop]
      show (if i < (cmatrix_copy (s.L_ops s.num_ops) L).rows ∧
          j < (cmatrix_copy (s.L_ops s.num_ops) L).cols then _ else _) = _
      rw [if_pos ⟨hi, hj⟩]
      show complex_mul (complex_make (golden_sqrt gamma) 0)
        ((cmatrix_copy (s.L_ops s.num_ops) L).data i j) = _
      have hcp : (cmatrix_copy (s.L_ops s.num_ops) L).data i j = L.data i j := by
        show (if i < L.rows ∧ j < L.cols then _ else _) = _
        rw [if_pos ⟨hi, hj⟩]
      rw [hcp, complex_mul_eq]
    refine ⟨rfl, rfl, rfl, hopdata, rfl, rfl, ?_, ?_⟩
    · intro i j hi hj
      show (if i < op.cols ∧ j < op.rows then _ else _) = _
      rw [if_pos ⟨by rw [hopcols]; exact hi, by rw [hoprows]; exact hj⟩]
    · intro i j hi hj
      have hi2 : i < (cmatrix_dagger (s.L_dag s.num_ops) op).rows := by
        show i < op.cols
        rw [hopcols]; exact hi
      have hj2 : j < op.cols := by rw [hopcols]; exact hj
      rw [cmatrix_mul_data_in hi2 hj2]
      show ∑ k ∈ Finset.range (cmatrix_dagger (s.L_dag s.num_ops) op).cols,
        _ = _
      have hc : (cmatrix_dagger (s.L_dag s.num_ops) op).cols = L.rows := rfl
      rw [hc]

/-- Witness for C9: on an empty system, adding one jump operator bumps the
count to one; on the full system, the call leaves the system unchanged. -/
theorem C9_add_jump_operator_amended_witness :
    (lindblad_add_jump_operator sys2wit fresh 1).num_ops = sys2wit.num_ops + 1 ∧
    lindblad_add_jump_operator fullSys fresh 1 = fullSys :=
  ⟨((C9_add_jump_operator_amended sys2wit fresh 1).2
      (by norm_num [sys2wit, LINDBLAD_MAX_OPS])).1,
   (C9_add_jump_operator_amended fullSys fresh 1).1
      (by norm_num [fullSys, LINDBLAD_MAX_OPS])⟩

/-- C1 counterexample: free every page of a fresh pool (the 256 `memory_free`
calls mark all 256 records `MEM_EVAPORATING` while leaving the occupied counter
at 0).  No `Empty` record exists, yet `allocate` does not fail: the guard only
checks the counter, the scan falls through to its default index `0`, and the
call overwrites record 0 — which was `Evaporating`, not `Empty` — returning its
(nonzero) address.  This refutes both "selects the Empty record" and "when no
Empty record exists it fails ... and leaves the pool completely unchanged". -/
theorem C1_counterexample :
    (∀ i, i < (freeIter 256).total_pages →
      ((freeIter 256).pages i).state ≠ MEM_EMPTY) ∧
    (freeIter 256).allocated_pages < MAX_MEMORY_PAGES ∧
    (memory_allocate goldenB (freeIter 256) 100).2 ≠ 0 ∧
    ((freeIter 256).pages 0).state = MEM_EVAPORATING ∧
    ((memory_allocate goldenB (freeIter 256) 100).1.pages 0).state =
      MEM_ALLOCATED := by
  obtain ⟨ht, ha, hp⟩ := freeIter_spec 256 (le_refl _)
  have hnoempty : ∀ i, i < (freeIter 256).total_pages →
      ((freeIter 256).pages i).state ≠ MEM_EMPTY := by
    intro i hi
    rw [ht] at hi
    rw [hp i, if_pos hi]
    intro hcon
    exact absurd hcon (by simp [evapPage])
  have hscan : allocate_scan (freeIter 256) = ((0:ℕ), 2 * PIq + 1) :=
    allocate_scan_none _ hnoempty
  have hguard : ¬ (freeIter 256).allocated_pages ≥ MAX_MEMORY_PAGES := by
    rw [ha]
    norm_num [MAX_MEMORY_PAGES]
  refine ⟨hnoempty, ?_, ?_, ?_, ?_⟩
  · rw [ha]
    norm_num [MAX_MEMORY_PAGES]
  · unfold memory_allocate
    rw [if_neg hguard]
    dsimp only
    norm_num [MEMORY_BASE]
  · rw [hp 0, if_pos (by omega)]
    rfl
  · unfold memory_allocate
    rw [if_neg hguard]
    dsimp only
    rw [hscan]
    dsimp only
    rw [Function.update_same]

/-- C1 amended: `allocate` fails — returning address `0` with the pool
unchanged — exactly when the occupied counter has reached the capacity
(`256`), regardless of whether `Empty` records exist.  When the counter is
below capacity and an `Empty` record exists (and all angles are in range, as
in every reachable state), it selects the `Empty` record with the smallest
`theta`, lowest index first, sets its `theta` to `0.1`, recomputes its
`operatorValue`, marks it `Allocated`, increments the occupied counter and
returns the record's address; when no `Empty` record exists it instead
overwrites record 0.  On a fresh pool the first 256 calls succeed (returning
nonzero addresses) and the 257-th fails. -/
theorem C1_allocate_amended (b : MathB) (m : MemoryManager) (sz : ℕ) :
    (m.allocated_pages ≥ MAX_MEMORY_PAGES → memory_allocate b m sz = (m, 0)) ∧
    (m.allocated_pages < MAX_MEMORY_PAGES →
      (∀ i, i < m.total_pages → (m.pages i).theta ≤ 2 * PIq) →
      (∃ i, i < m.total_pages ∧ (m.pages i).state = MEM_EMPTY) →
      ((m.pages (allocate_scan m).1).state = MEM_EMPTY ∧
       (∀ i, i < m.total_pages → (m.pages i).state = MEM_EMPTY →
         (m.pages (allocate_scan m).1).theta ≤ (m.pages i).theta) ∧
       (∀ i, i < (allocate_scan m).1 → (m.pages i).state = MEM_EMPTY →
         (m.pages (allocate_scan m).1).theta < (m.pages i).theta) ∧
       (memory_allocate b m sz).2 =
         MEMORY_BASE + (allocate_scan m).1 * PAGE_SIZE ∧
       (memory_allocate b m sz).1.allocated_pages = m.allocated_pages + 1 ∧
       ((memory_allocate b m sz).1.pages (allocate_scan m).1).theta = 1/10 ∧
       ((memory_allocate b m sz).1.pages (allocate_scan m).1).O_n =
         compute_O_n_for_page b (allocate_scan m).1 ∧
       ((memory_allocate b m sz).1.pages (allocate_scan m).1).state =
         MEM_ALLOCATED)) ∧
    (∀ szs : ℕ → ℕ, ∀ k, k < 256 →
      (memory_allocate b (allocIter b szs k) (szs k)).2 ≠ 0) ∧
    (∀ szs : ℕ → ℕ,
      memory_allocate b (allocIter b szs 256) sz = (allocIter b szs 256, 0)) := by
  refine ⟨?_, ?_, ?_, ?_⟩
  · intro h
    unfold memory_allocate
    rw [if_pos h]
  · intro hlt hθ hne
    obtain ⟨hb1, hb2, hb3, hb4, hb5⟩ := allocate_scan_spec m hθ hne
    have hguard : ¬ m.allocated_pages ≥ MAX_MEMORY_PAGES := by omega
    refine ⟨hb2, ?_, ?_, ?_, ?_, ?_, ?_, ?_⟩
    · intro i hi he
      have := hb4 i hi he
      rw [hb3] at this
      exact this
    · intro i hi he
      have := hb5 i hi he
      rw [hb3] at this
      exact this
    · unfold memory_allocate
      rw [if_neg hguard]
    · unfold memory_allocate
      rw [if_neg hguard]
    · unfold memory_allocate
      rw [if_neg hguard]
      dsimp only
      rw [Function.update_same]
    · unfold memory_allocate
      rw [if_neg hguard]
      dsimp only
      rw [Function.update_same]
    · unfold memory_allocate
      rw [if_neg hguard]
      dsimp only
      rw [Function.update_same]
  · intro szs k hk
    rw [allocIter_succeeds b szs k hk]
    norm_num [MEMORY_BASE]
  · intro szs
    exact allocIter_fails b szs sz

/-- Witness for C1: on the fresh pool the first call succeeds and selects slot
`0` (an `Empty` record of minimal angle), and after 256 allocations the 257-th
call fails leaving the pool unchanged. -/
theorem C1_allocate_amended_witness :
    ((memory_allocate goldenB memory_init 100).1.pages
      (allocate_scan memory_init).1).state = MEM_ALLOCATED ∧
    (memory_allocate goldenB (allocIter goldenB (fun _ => 100) 0) 100).2 ≠ 0 ∧
    memory_allocate goldenB (allocIter goldenB (fun _ => 100) 256) 100 =
      (allocIter goldenB (fun _ => 100) 256, 0) := by
  have hθ : ∀ i, i < memory_init.total_pages →
      (memory_init.pages i).theta ≤ 2 * PIq := by
    intro i _
    show (memory_init.pages i).theta ≤ 2 * PIq
    unfold memory_init initPage
    rcases Nat.lt_or_ge i MAX_MEMORY_PAGES with h | h
    · simp only [if_pos h]
      norm_num [PIq]
    · simp only [if_neg (by omega : ¬ i < MAX_MEMORY_PAGES)]
      norm_num [PIq]
  have hne : ∃ i, i < memory_init.total_pages ∧
      (memory_init.pages i).state = MEM_EMPTY := by
    refine ⟨0, ?_, ?_⟩
    · show 0 < MAX_MEMORY_PAGES
      norm_num [MAX_MEMORY_PAGES]
    · show (memory_init.pages 0).state = MEM_EMPTY
      unfold memory_init initPage
      simp only [if_pos (show 0 < MAX_MEMORY_PAGES by
        norm_num [MAX_MEMORY_PAGES])]
  refine ⟨((C1_allocate_amended goldenB memory_init 100).2.1
      (show memory_init.allocated_pages < MAX_MEMORY_PAGES by
        show 0 < MAX_MEMORY_PAGES
        norm_num [MAX_MEMORY_PAGES]) hθ hne).2.2.2.2.2.2.2, ?_, ?_⟩
  · exact (C1_allocate_amended goldenB memory_init 100).2.2.1 (fun _ => 100) 0
      (by norm_num)
  · exact (C1_allocate_amended goldenB memory_init 100).2.2.2 (fun _ => 100)

/-- A page whose lifecycle state is `MEM_EMPTY` passes through the tick loop
unchanged and never triggers the forced reset. -/
theorem timestep_page_empty (b : MathB) (tot i : ℕ) (p : MetripleticPage)
    (h : p.state = MEM_EMPTY) : timestep_page b tot i p = (p, false) := by
  unfold timestep_page
  rw [if_neg (by simp [h])]
  rw [if_neg (by rw [h]; simp)]

theorem compute_O_n_for_page_zero (b : MathB) :
    compute_O_n_for_page b 0 = 0 := by
  unfold compute_O_n_for_page
  norm_num

/-- Evaluation of one tick on page 0 of the fresh pool after it was freed:
its angle moves from `0` to `π/1000` and the re-projection sends it straight
back to `MEM_EMPTY` — the forced-reset branch (which requires
`θ > 2π - 0.1`) never fires, so the occupied counter is not decremented. -/
theorem C2_page0_step :
    (timestep_page goldenB 256 0 (evapPage 0)).2 = false ∧
    ((timestep_page goldenB 256 0 (evapPage 0)).1).state = MEM_EMPTY ∧
    ((timestep_page goldenB 256 0 (evapPage 0)).1).theta = PIq / 1000 := by
  have hO : compute_O_n_for_page goldenB 0 = 0 := compute_O_n_for_page_zero _
  have heta : compute_thermal_viscosity goldenB ((evapPage 0).theta) = 1/10 := by
    show compute_thermal_viscosity goldenB 0 = 1/10
    unfold compute_thermal_viscosity
    norm_num [VISCOSITY_BASE, THERMAL_BATH_TEMP, goldenB, golden_exp_zero,
      golden_sin_zero]
  have hth0 : (evapPage 0).theta = 0 := rfl
  have hevtheta :
      (metripletic_page_evolution goldenB 256 0 (evapPage 0)).theta =
        PIq / 1000 := by
    unfold metripletic_page_evolution
    dsimp only
    rw [hO, heta, hth0]
    norm_num [PIq]
  have hevstate :
      (metripletic_page_evolution goldenB 256 0 (evapPage 0)).state =
        MEM_EMPTY := by
    unfold metripletic_page_evolution
    dsimp only
    rw [hO, heta, hth0]
    norm_num [PIq, project_memory_state]
  have hnotempty : (evapPage 0).state ≠ MEM_EMPTY := by simp [evapPage]
  have hreset : ¬ ((metripletic_page_evolution goldenB 256 0
      (evapPage 0)).state = MEM_EVAPORATING ∧
      (metripletic_page_evolution goldenB 256 0 (evapPage 0)).theta >
        2 * PIq - 1/10) := by
    rw [hevstate]
    simp
  refine ⟨?_, ?_, ?_⟩
  · unfold timestep_page
    rw [if_pos hnotempty, if_neg hreset]
  · unfold timestep_page
    rw [if_pos hnotempty, if_neg hreset]
    exact hevstate
  · unfold timestep_page
    rw [if_pos hnotempty, if_neg hreset]
    exact hevtheta

/-- C2 counterexample: free the fresh pool's first page (making it
`Evaporating` with `θ = 0`), then tick once.  The page leaves `Evaporating`
and becomes `Empty` with `θ = π/1000` — nowhere near the forced-reset bound
`2π − 0.1`, and with a nonzero angle, so not by the forced reset; the occupied
counter is accordingly not decremented (it stays 0 instead of wrapping).  So
the forced reset is *not* the only way a record leaves `Evaporating`. -/
theorem C2_counterexample :
    ((memory_free memory_init MEMORY_BASE).pages 0).state = MEM_EVAPORATING ∧
    ((memory_timestep goldenB (memory_free memory_init MEMORY_BASE) 0).pages 0).state
      = MEM_EMPTY ∧
    ((memory_timestep goldenB (memory_free memory_init MEMORY_BASE) 0).pages 0).theta
      = PIq / 1000 ∧
    PIq / 1000 ≠ 0 ∧
    PIq / 1000 ≤ 2 * PIq - 1/10 ∧
    (memory_timestep goldenB (memory_free memory_init MEMORY_BASE) 0).allocated_pages
      = 0 := by
  have hbridge : memory_free memory_init MEMORY_BASE = freeIter 1 := by
    show memory_free memory_init MEMORY_BASE = freeIter (0+1)
    rw [freeIter]
    rw [freeIter]
    norm_num
  obtain ⟨ht, ha, hp⟩ := freeIter_spec 1 (by omega)
  rw [hbridge]
  have hpg0 : (freeIter 1).pages 0 = evapPage 0 := by
    rw [hp 0, if_pos (by omega)]
  have htick0 : (memory_timestep goldenB (freeIter 1) 0).pages 0 =
      (timestep_page goldenB 256 0 (evapPage 0)).1 := by
    rw [memory_timestep_pages, memory_timestep_phase1_pages]
    rw [ht, hpg0]
    rw [if_pos (by omega)]
  obtain ⟨hstep2, hstepstate, hsteptheta⟩ := C2_page0_step
  refine ⟨?_, ?_, ?_, ?_, ?_, ?_⟩
  · rw [hpg0]
    rfl
  · rw [htick0]
    exact hstepstate
  · rw [htick0]
    exact hsteptheta
  · norm_num [PIq]
  · norm_num [PIq]
  · rw [memory_timestep_alloc]
    show ((List.range (freeIter 1).total_pages).foldl
      (phase1Step goldenB) (freeIter 1)).allocated_pages = 0
    rw [ht]
    have hflags : ∀ i, i < 256 →
        (timestep_page goldenB (freeIter 1).total_pages i
          ((freeIter 1).pages i)).2 = false := by
      intro i hi
      rw [ht]
      rcases Nat.eq_zero_or_pos i with rfl | hpos
      · rw [hpg0]
        exact hstep2
      · have hpi : (freeIter 1).pages i = memory_init.pages i := by
          rw [hp i, if_neg (by omega)]
        have hE : (memory_init.pages i).state = MEM_EMPTY := by
          unfold memory_init
          dsimp only
          split
          · rfl
          · rfl
        rw [hpi, timestep_page_empty goldenB 256 i (memory_init.pages i) hE]
    exact (phase1_foldl_alloc goldenB (freeIter 1) 256 hflags).trans ha

/-- C2 amended: a record in `Evaporating` is never moved out of it by `free`
(which re-marks it `Evaporating`) nor by `allocate` when an `Empty` record
exists (the scan picks an `Empty` record) or when the pool counter is full
(no-op); but during `tick` it leaves `Evaporating` either by the forced reset
(only when, after evolution, it is still `Evaporating` with `θ > 2π − 0.1`;
the reset zeroes `θ` and decrements the counter) *or* by the per-tick
re-projection of its evolved `(operatorValue, θ)`, which can send it to
`Empty`, `Allocated` or `Thermal` directly. -/
theorem C2_evaporating_transitions (b : MathB) (m : MemoryManager)
    (a sz t i : ℕ) (hi : i < m.total_pages)
    (hev : (m.pages i).state = MEM_EVAPORATING) :
    ((memory_free m a).pages i).state = MEM_EVAPORATING ∧
    (m.allocated_pages ≥ MAX_MEMORY_PAGES → (memory_allocate b m sz).1 = m) ∧
    (m.allocated_pages < MAX_MEMORY_PAGES →
      (∀ j, j < m.total_pages → (m.pages j).theta ≤ 2 * PIq) →
      (∃ j, j < m.total_pages ∧ (m.pages j).state = MEM_EMPTY) →
      ((memory_allocate b m sz).1.pages i).state = MEM_EVAPORATING) ∧
    (((memory_timestep b m t).pages i).state = MEM_EVAPORATING ∨
     ((metripletic_page_evolution b m.total_pages i (m.pages i)).state =
        MEM_EVAPORATING ∧
      (metripletic_page_evolution b m.total_pages i (m.pages i)).theta >
        2 * PIq - 1/10 ∧
      ((memory_timestep b m t).pages i).state = MEM_EMPTY ∧
      ((memory_timestep b m t).pages i).theta = 0) ∨
     ((metripletic_page_evolution b m.total_pages i (m.pages i)).state ≠
        MEM_EVAPORATING ∧
      (memory_timestep b m t).pages i =
        metripletic_page_evolution b m.total_pages i (m.pages i))) := by
  refine ⟨?_, ?_, ?_, ?_⟩
  · rcases memory_free_pages m a i with h | h
    · rw [h]
      exact hev
    · rw [h]
  · intro h
    unfold memory_allocate
    rw [if_pos h]
  · intro hlt hθ hne
    obtain ⟨hb1, hb2, _, _, _⟩ := allocate_scan_spec m hθ hne
    have hguard : ¬ m.allocated_pages ≥ MAX_MEMORY_PAGES := by omega
    have hnei : i ≠ (allocate_scan m).1 := by
      intro hcon
      rw [hcon] at hev
      rw [hev] at hb2
      exact absurd hb2 (by simp)
    unfold memory_allocate
    rw [if_neg hguard]
    dsimp only
    rw [Function.update_noteq hnei]
    exact hev
  · have hne2 : (m.pages i).state ≠ MEM_EMPTY := by rw [hev]; simp
    rw [memory_timestep_pages, memory_timestep_phase1_pages, if_pos hi]
    unfold timestep_page
    rw [if_pos hne2]
    by_cases hc : (metripletic_page_evolution b m.total_pages i
        (m.pages i)).state = MEM_EVAPORATING ∧
        (metripletic_page_evolution b m.total_pages i (m.pages i)).theta >
          2 * PIq - 1/10
    · right; left
      rw [if_pos hc]
      exact ⟨hc.1, hc.2, rfl, rfl⟩
    · rw [if_neg hc]
      by_cases hd : (metripletic_page_evolution b m.total_pages i
          (m.pages i)).state = MEM_EVAPORATING
      · left
        exact hd
      · right; right
        exact ⟨hd, rfl⟩

/-- Witness for C2 at the freed fresh pool: `free` keeps page 0 `Evaporating`,
`allocate` (which picks an `Empty` page) keeps page 0 `Evaporating`, and the
tick disjunction holds there. -/
theorem C2_evaporating_transitions_witness :
    ((memory_free (memory_free memory_init MEMORY_BASE) 0).pages 0).state =
      MEM_EVAPORATING ∧
    ((memory_allocate goldenB (memory_free memory_init MEMORY_BASE) 7).1.pages 0).state
      = MEM_EVAPORATING := by
  have hbridge : memory_free memory_init MEMORY_BASE = freeIter 1 := by
    show memory_free memory_init MEMORY_BASE = freeIter (0+1)
    rw [freeIter]
    rw [freeIter]
    norm_num
  obtain ⟨ht, ha, hp⟩ := freeIter_spec 1 (by omega)
  have hi : (0:ℕ) < (freeIter 1).total_pages := by rw [ht]; omega
  have hev : ((freeIter 1).pages 0).state = MEM_EVAPORATING := by
    rw [hp 0, if_pos (by omega)]
    rfl
  have hθ : ∀ j, j < (freeIter 1).total_pages →
      ((freeIter 1).pages j).theta ≤ 2 * PIq := by
    intro j _
    rw [hp j]
    rcases Nat.lt_or_ge j 1 with h | h
    · rw [if_pos h]
      show (0:ℚ) ≤ 2 * PIq
      norm_num [PIq]
    · rw [if_neg (by omega)]
      show (memory_init.pages j).theta ≤ 2 * PIq
      unfold memory_init initPage
      rcases Nat.lt_or_ge j MAX_MEMORY_PAGES with h2 | h2
      · simp only [if_pos h2]
        norm_num [PIq]
      · simp only [if_neg (by omega : ¬ j < MAX_MEMORY_PAGES)]
        norm_num [PIq]
  have hne : ∃ j, j < (freeIter 1).total_pages ∧
      ((freeIter 1).pages j).state = MEM_EMPTY := by
    refine ⟨1, by rw [ht]; omega, ?_⟩
    rw [hp 1, if_neg (by omega)]
    show (memory_init.pages 1).state = MEM_EMPTY
    unfold memory_init initPage
    simp only [if_pos (show 1 < MAX_MEMORY_PAGES by
      norm_num [MAX_MEMORY_PAGES])]
  constructor
  · rw [hbridge]
    exact (C2_evaporating_transitions goldenB (freeIter 1) 0 7 0 0 hi hev).1
  · rw [hbridge]
    exact (C2_evaporating_transitions goldenB (freeIter 1) 0 7 0 0 hi hev).2.2.1
      (by rw [ha]; norm_num [MAX_MEMORY_PAGES]) hθ hne

/-- C4 counterexample: after five allocations from the fresh pool, page 4's
per-record operator value is `4 · cos(0.72π) ≈ −2.55`, violating the claimed
invariant `|operatorValue| ≤ 1`: the per-page recomputation multiplies the
bounded cosine by the page index. -/
theorem C4_counterexample :
    1 < |((allocIter goldenB (fun _ => 100) 5).pages 4).O_n| := by
  obtain ⟨_, _, hp⟩ := allocIter_spec goldenB (fun _ => 100) 5 (by omega)
  rw [hp 4, if_pos (by omega)]
  show 1 < |(4:ℚ) * (if 4 % 2 = 1 then (-1:ℚ) else 1) *
    golden_cos (PIq * MM_PHI * (4:ℚ))|
  rw [if_neg (by omega)]
  have hmem : normalize_angle (PIq * MM_PHI * (4:ℚ)) = PIq * MM_PHI * (4:ℚ) := by
    apply normalize_angle_of_mem
    · norm_num [PIq, MM_PHI]
    · norm_num [PIq, MM_PHI]
  have hcos : golden_cos (PIq * MM_PHI * (4:ℚ)) =
      cosPoly ((PIq * MM_PHI * 4) * (PIq * MM_PHI * 4)) := by
    rw [golden_cos_closed, hmem]
  have hquart := cosPoly_le_quartic
    (mul_self_nonneg (PIq * MM_PHI * 4))
    (show (PIq * MM_PHI * 4) * (PIq * MM_PHI * 4) ≤ 12 by
      norm_num [PIq, MM_PHI])
  have hval : golden_cos (PIq * MM_PHI * (4:ℚ)) < -1/4 := by
    rw [hcos]
    have hnum : 1 - ((PIq * MM_PHI * 4) * (PIq * MM_PHI * 4))/2 +
        ((PIq * MM_PHI * 4) * (PIq * MM_PHI * 4))^2/24 -
        ((PIq * MM_PHI * 4) * (PIq * MM_PHI * 4))^3/720 +
        ((PIq * MM_PHI * 4) * (PIq * MM_PHI * 4))^4/40320 < -1/4 := by
      norm_num [PIq, MM_PHI]
    linarith
  have hlt : (4:ℚ) * 1 * golden_cos (PIq * MM_PHI * (4:ℚ)) < -1 := by
    linarith
  calc (1:ℚ) < -((4:ℚ) * 1 * golden_cos (PIq * MM_PHI * (4:ℚ))) := by linarith
    _ ≤ |(4:ℚ) * 1 * golden_cos (PIq * MM_PHI * (4:ℚ))| := neg_le_abs _

/-- C4 amended: the *global* scalar state does satisfy `|O_n| ≤ 1` at
initialisation and after every step (its operator value comes from the
parity-times-cosine formula), but each *page's* operator value — written by
`allocate` and rewritten by every tick's evolution — is
`compute_O_n_for_page`, which scales the cosine by the page index and is
bounded only by the index itself. -/
theorem C4_operator_bound_amended (s : GoldenState) (i total : ℕ) (sz : ℕ)
    (p : MetripleticPage) :
    |golden_operator_init.O_n| ≤ 1 ∧
    |(golden_operator_step s).O_n| ≤ 1 ∧
    (allocPage goldenB i sz).O_n = compute_O_n_for_page goldenB i ∧
    (metripletic_page_evolution goldenB total i p).O_n =
      compute_O_n_for_page goldenB i ∧
    |compute_O_n_for_page goldenB i| ≤ (i : ℚ) := by
  refine ⟨by norm_num [golden_operator_init], ?_, rfl, rfl, ?_⟩
  · show |golden_operator_compute ((s.n + 1) % 4294967296)| ≤ 1
    exact golden_operator_compute_abs_le_one _
  · unfold compute_O_n_for_page
    rw [abs_mul, abs_mul]
    have h1 : |(i:ℚ)| = (i:ℚ) := abs_of_nonneg (by positivity)
    have h2 : |(if i % 2 = 1 then (-1:ℚ) else 1)| = 1 := by
      split
      · norm_num
      · norm_num
    rw [h1, h2, mul_one]
    calc (i:ℚ) * |goldenB.cos (PIq * MM_PHI * (i:ℚ))| ≤ (i:ℚ) * 1 :=
          mul_le_mul_of_nonneg_left (golden_cos_abs_le_one _) (by positivity)
      _ = (i:ℚ) := mul_one _

/-- The step's wrap is the identity on angles already in `[0, 2π]`. -/
theorem golden_wrap_id (x : ℚ) (h0 : 0 ≤ x) (h2 : x ≤ TWO_PIq) :
    golden_wrap x = x := by
  unfold golden_wrap
  rw [wrapUp_of_nonneg _ _ h0, wrapDown_of_le _ _ h2]

/-- The spec's bath-viscosity formula, written from the spec's words:
`η₀ · exp(θ/T) · (1 + 0.5·sin(θ/2))` with `η₀ = 0.1`, `T = 300`. -/
def specBathViscosity (b : MathB) (theta : ℚ) : ℚ :=
(1/10) * b.exp (theta / 300) * (1 + (1/2) * b.sin (theta / 2))

/-- C5 counterexample: starting from the initial global scalar state, the
global step stores `0.1·exp(θ'/300)` (no oscillation factor, evaluated at the
*new* angle `θ' = π/500`), which is strictly above the page formula at the old
angle (`= 0.1`) and strictly below the page formula at the new angle — so the
global and per-page viscosity updates are *not* the same function. -/
theorem C5_counterexample :
    (golden_operator_step golden_operator_init).theta = PIq / 500 ∧
    compute_thermal_viscosity goldenB golden_operator_init.theta = 1/10 ∧
    1/10 < (golden_operator_step golden_operator_init).viscosity ∧
    (golden_operator_step golden_operator_init).viscosity <
      compute_thermal_viscosity goldenB
        (golden_operator_step golden_operator_init).theta := by
  have harg : golden_operator_init.theta +
      golden_operator_compute ((golden_operator_init.n + 1) % 4294967296) *
        golden_sin (2 * golden_operator_init.theta) * HALF_PIq / 100 +
      golden_operator_init.viscosity * (PIq - golden_operator_init.theta) / 50
      = PIq / 500 := by
    show (0:ℚ) + golden_operator_compute ((0 + 1) % 4294967296) *
      golden_sin (2 * 0) * HALF_PIq / 100 + (1/10) * (PIq - 0) / 50 = PIq / 500
    rw [show (2:ℚ) * 0 = 0 by norm_num, golden_sin_zero]
    ring
  have hth : (golden_operator_step golden_operator_init).theta = PIq / 500 := by
    unfold golden_operator_step
    dsimp only
    rw [harg]
    exact golden_wrap_id _ (by norm_num [PIq]) (by norm_num [PIq, TWO_PIq])
  have hv : (golden_operator_step golden_operator_init).viscosity =
      (1/10) * golden_exp ((golden_operator_step golden_operator_init).theta
        / 300) := rfl
  have hexpge := @golden_exp_ge (PIq/500/300) (by norm_num [PIq])
    (by norm_num [PIq])
  have hEpos : (0:ℚ) < golden_exp (PIq/500/300) := by
    have : (0:ℚ) < PIq/500/300 := by norm_num [PIq]
    linarith
  refine ⟨hth, ?_, ?_, ?_⟩
  · show compute_thermal_viscosity goldenB 0 = 1/10
    unfold compute_thermal_viscosity
    norm_num [VISCOSITY_BASE, THERMAL_BATH_TEMP, goldenB, golden_exp_zero,
      golden_sin_zero]
  · rw [hv, hth]
    have : (0:ℚ) < PIq/500/300 := by norm_num [PIq]
    linarith
  · rw [hv, hth]
    have hsinpos : 0 < golden_sin (PIq * (PIq/500) / (2*PIq)) := by
      have harg2 : PIq * (PIq/500) / (2*PIq) = PIq/1000 := by
        have hne : PIq ≠ 0 := by norm_num [PIq]
        field_simp
        ring
      rw [harg2, golden_sin_closed,
        normalize_angle_of_mem _ (by norm_num [PIq]) (by norm_num [PIq])]
      exact @sinPoly_pos (PIq/1000) (by norm_num [PIq]) (by norm_num [PIq])
    unfold compute_thermal_viscosity
    simp only [goldenB]
    have hV : VISCOSITY_BASE = (1/10 : ℚ) := by norm_num [VISCOSITY_BASE]
    have hT : THERMAL_BATH_TEMP = (300:ℚ) := rfl
    rw [hV, hT]
    nlinarith [mul_pos hEpos hsinpos]

/-- C5 amended: the per-page viscosity helper does compute the spec's formula
`η₀·exp(θ/T)·(1 + ½·sin(θ/2))` (its `π·θ/(2π)` argument simplifies to `θ/2`),
but the global step instead stores `η₀·exp(θ/T)` with no oscillation factor,
evaluated at the already-updated angle — the two instances do not share one
viscosity function. -/
theorem C5_viscosity_amended (b : MathB) (theta : ℚ) (s : GoldenState) :
    compute_thermal_viscosity b theta = specBathViscosity b theta ∧
    (golden_operator_step s).viscosity =
      (1/10) * golden_exp ((golden_operator_step s).theta / 300) := by
  constructor
  · have harg : PIq * theta / (2 * PIq) = theta / 2 := by
      have hne : PIq ≠ 0 := by norm_num [PIq]
      field_simp
      ring
    unfold compute_thermal_viscosity specBathViscosity
    rw [harg]
    norm_num [VISCOSITY_BASE, THERMAL_BATH_TEMP]
  · rfl

/-- The one-shot angle wrap inlined in `metripletic_page_evolution` (lines
246-248 of `MemoryManager.cpp`): one conditional addition of `2π`, then one
conditional subtraction. -/
def page_wrap (x : ℚ) : ℚ :=
  let x2 := if x < 0 then x + 2 * PIq else x
  if x2 > 2 * PIq then x2 - 2 * PIq else x2

/-- C6 counterexample: the step's while-loop wrap maps `2π` to `2π` itself —
on the boundary, *outside* the claimed half-open `[0, 2π)` — and the page
evolution's one-shot wrap does not even bring `−4π` back into range: it stops
at `−2π`. -/
theorem C6_counterexample :
    golden_wrap TWO_PIq = TWO_PIq ∧
    golden_wrap TWO_PIq ∉ Set.Ico 0 TWO_PIq ∧
    page_wrap (-(2 * TWO_PIq)) = -TWO_PIq ∧
    page_wrap (-(2 * TWO_PIq)) ∉ Set.Ico 0 TWO_PIq := by
  have hpw : page_wrap (-(2 * TWO_PIq)) = -TWO_PIq := by
    unfold page_wrap
    dsimp only
    rw [if_pos (show -(2 * TWO_PIq) < 0 by norm_num [TWO_PIq])]
    rw [if_neg (show ¬ (-(2 * TWO_PIq) + 2 * PIq > 2 * PIq) by
      norm_num [TWO_PIq, PIq])]
    norm_num [TWO_PIq, PIq]
  refine ⟨golden_wrap_two_pi, ?_, hpw, ?_⟩
  · rw [golden_wrap_two_pi]
    intro h
    exact absurd h.2 (lt_irrefl _)
  · rw [hpw]
    intro h
    exact absurd h.1 (by norm_num [TWO_PIq])

/-- C6 amended: the step's while-loop wrap lands in the *closed* interval
`[0, 2π]` for every input (the boundary `2π` is attainable), while the page
evolution's one-shot wrap — which is what produces the stored page angle —
lands in `[0, 2π]` only for pre-wrap angles in `[−2π, 4π]`. -/
theorem C6_wrap_amended (b : MathB) (total i : ℕ) (p : MetripleticPage)
    (x y : ℚ) (hy0 : -(2 * PIq) ≤ y) (hy1 : y ≤ 4 * PIq) :
    0 ≤ golden_wrap x ∧ golden_wrap x ≤ 2 * PIq ∧
    0 ≤ page_wrap y ∧ page_wrap y ≤ 2 * PIq ∧
    (metripletic_page_evolution b total i p).theta =
      page_wrap (p.theta +
        (PIq / 2) * b.sin (2 * p.theta) * compute_O_n_for_page b i /
          ((total : ℚ) + 1) +
        compute_thermal_viscosity b p.theta * (PIq - p.theta) * (1/100)) := by
  obtain ⟨hg0, hg1⟩ := golden_wrap_mem x
  rw [two_piq_eq] at hg1
  refine ⟨hg0, hg1, ?_, ?_, rfl⟩
  · unfold page_wrap
    dsimp only
    by_cases h1 : y < 0
    · rw [if_pos h1]
      rw [if_neg (show ¬ (y + 2 * PIq > 2 * PIq) by linarith)]
      linarith
    · rw [if_neg h1]
      by_cases h2 : y > 2 * PIq
      · rw [if_pos h2]
        linarith
      · rw [if_neg h2]
        linarith
  · unfold page_wrap
    dsimp only
    by_cases h1 : y < 0
    · rw [if_pos h1]
      rw [if_neg (show ¬ (y + 2 * PIq > 2 * PIq) by linarith)]
      linarith
    · rw [if_neg h1]
      by_cases h2 : y > 2 * PIq
      · rw [if_pos h2]
        linarith
      · rw [if_neg h2]
        linarith

/-- Witness for C6 at `x = 0`, `y = π`, page 0 of the fresh pool. -/
theorem C6_wrap_amended_witness :
    0 ≤ golden_wrap 0 ∧ golden_wrap 0 ≤ 2 * PIq ∧
    0 ≤ page_wrap PIq ∧ page_wrap PIq ≤ 2 * PIq ∧
    (metripletic_page_evolution goldenB 256 0 (initPage 0)).theta =
      page_wrap ((initPage 0).theta +
        (PIq / 2) * goldenB.sin (2 * (initPage 0).theta) *
          compute_O_n_for_page goldenB 0 / ((256 : ℚ) + 1) +
        compute_thermal_viscosity goldenB (initPage 0).theta *
          (PIq - (initPage 0).theta) * (1/100)) :=
  C6_wrap_amended goldenB 256 0 (initPage 0) 0 PIq
    (by norm_num [PIq]) (by norm_num [PIq])

/-- Every slot of the fresh pool starts in `MEM_EMPTY`. -/
theorem memory_init_pages_state (j : ℕ) :
    (memory_init.pages j).state = MEM_EMPTY := by
  unfold memory_init
  dsimp only
  split
  · rfl
  · rfl

/-- The page evolution's one-shot wrap is the identity on `[0, 2π]`. -/
theorem page_wrap_id (x : ℚ) (h0 : 0 ≤ x) (h2 : x ≤ 2 * PIq) :
    page_wrap x = x := by
  unfold page_wrap
  dsimp only
  rw [if_neg (not_lt.mpr h0), if_neg (not_lt.mpr h2)]

/-- Record-level equation for `metripletic_page_evolution` via `page_wrap`. -/
theorem metripletic_page_evolution_eq (b : MathB) (total i : ℕ)
    (p : MetripleticPage) :
    metripletic_page_evolution b total i p =
      { p with
        O_n := compute_O_n_for_page b i
        theta := page_wrap (p.theta + (PIq / 2) * b.sin (2 * p.theta) *
          compute_O_n_for_page b i / ((total : ℚ) + 1) +
          compute_thermal_viscosity b p.theta * (PIq - p.theta) * (1/100))
        state := project_memory_state (compute_O_n_for_page b i)
          (page_wrap (p.theta + (PIq / 2) * b.sin (2 * p.theta) *
            compute_O_n_for_page b i / ((total : ℚ) + 1) +
            compute_thermal_viscosity b p.theta * (PIq - p.theta) * (1/100)))
        entropy := (|b.sin (page_wrap (p.theta + (PIq / 2) * b.sin (2 * p.theta) *
          compute_O_n_for_page b i / ((total : ℚ) + 1) +
          compute_thermal_viscosity b p.theta * (PIq - p.theta) * (1/100)))|
          + 1/10) / 4
        thermal_viscosity := compute_thermal_viscosity b p.theta } := rfl

/-- Bounds on the thermal viscosity at the just-allocated angle `θ = 0.1`. -/
theorem eta_alloc_bounds :
    1/10 ≤ compute_thermal_viscosity goldenB (1/10) ∧
    compute_thermal_viscosity goldenB (1/10) ≤ 11/100 := by
  unfold compute_thermal_viscosity
  simp only [goldenB]
  have harg : PIq * (1/10) / (2 * PIq) = 1/20 := by
    have hne : PIq ≠ 0 := by norm_num [PIq]
    field_simp
    ring
  have hT : (1/10 : ℚ) / THERMAL_BATH_TEMP = 1/3000 := by
    norm_num [THERMAL_BATH_TEMP]
  have hVB : VISCOSITY_BASE = (1/10 : ℚ) := by norm_num [VISCOSITY_BASE]
  rw [harg, hT, hVB]
  have hsin : golden_sin (1/20) = sinPoly (1/20) := by
    rw [golden_sin_closed,
      normalize_angle_of_mem _ (by norm_num [PIq]) (by norm_num [PIq])]
  rw [hsin]
  have hs0 : 0 ≤ sinPoly (1/20) := sinPoly_nonneg (by norm_num) (by norm_num)
  have hs1 : sinPoly (1/20) ≤ 1/20 := sinPoly_le (by norm_num) (by norm_num)
  have hE0 := @golden_exp_ge (1/3000) (by norm_num) (by norm_num)
  have hE1 := @golden_exp_le (1/3000) (by norm_num) (by norm_num)
  constructor
  · nlinarith [mul_nonneg (show (0:ℚ) ≤ golden_exp (1/3000) - 1 by linarith)
      hs0]
  · nlinarith [mul_le_mul hE1
      (show 1 + (1/2) * sinPoly (1/20) ≤ 41/40 by linarith)
      (show (0:ℚ) ≤ 1 + (1/2) * sinPoly (1/20) by linarith) (by norm_num)]

/-- One tick of the single allocated page (index 0, size 100, `θ = 0.1`):
the dissipative drift moves `θ` only slightly (to at most `0.11`), but the
re-projection — seeing `O_n = 0` for page index 0 — sends the record back to
`MEM_EMPTY` without touching the occupied counter. -/
theorem alloc_tick_page0 :
    (1/10 : ℚ) ≤ (metripletic_page_evolution goldenB 256 0
        (allocPage goldenB 0 100)).theta ∧
    (metripletic_page_evolution goldenB 256 0
        (allocPage goldenB 0 100)).theta ≤ 11/100 ∧
    (metripletic_page_evolution goldenB 256 0
        (allocPage goldenB 0 100)).state = MEM_EMPTY ∧
    (metripletic_page_evolution goldenB 256 0
        (allocPage goldenB 0 100)).size = 100 ∧
    timestep_page goldenB 256 0 (allocPage goldenB 0 100) =
      (metripletic_page_evolution goldenB 256 0 (allocPage goldenB 0 100),
        false) := by
  obtain ⟨hη0, hη1⟩ := eta_alloc_bounds
  have h3 : (3:ℚ) < PIq := by norm_num [PIq]
  have h4 : PIq < 4 := piq_lt_four
  have hA : (allocPage goldenB 0 100).theta + (PIq / 2) *
      goldenB.sin (2 * (allocPage goldenB 0 100).theta) *
      compute_O_n_for_page goldenB 0 / ((((256:ℕ)) : ℚ) + 1) +
      compute_thermal_viscosity goldenB (allocPage goldenB 0 100).theta *
        (PIq - (allocPage goldenB 0 100).theta) * (1/100) =
      1/10 + compute_thermal_viscosity goldenB (1/10) * (PIq - 1/10) *
        (1/100) := by
    show (1/10 : ℚ) + (PIq / 2) * goldenB.sin (2 * (1/10)) *
      compute_O_n_for_page goldenB 0 / ((((256:ℕ)) : ℚ) + 1) +
      compute_thermal_viscosity goldenB (1/10) * (PIq - 1/10) * (1/100) =
      1/10 + compute_thermal_viscosity goldenB (1/10) * (PIq - 1/10) * (1/100)
    rw [compute_O_n_for_page_zero]
    ring
  have hddpos : (0:ℚ) ≤ compute_thermal_viscosity goldenB (1/10) *
      (PIq - 1/10) * (1/100) :=
    mul_nonneg (mul_nonneg (by linarith) (by linarith)) (by norm_num)
  have hth1 : 1/10 + compute_thermal_viscosity goldenB (1/10) *
      (PIq - 1/10) * (1/100) ≤ 11/100 := by
    nlinarith [mul_nonneg
      (show (0:ℚ) ≤ 11/100 - compute_thermal_viscosity goldenB (1/10) by
        linarith)
      (show (0:ℚ) ≤ PIq - 1/10 by linarith)]
  have hth0 : (0:ℚ) ≤ 1/10 + compute_thermal_viscosity goldenB (1/10) *
      (PIq - 1/10) * (1/100) := by linarith
  have hwrap : page_wrap (1/10 + compute_thermal_viscosity goldenB (1/10) *
      (PIq - 1/10) * (1/100)) =
      1/10 + compute_thermal_viscosity goldenB (1/10) * (PIq - 1/10) *
        (1/100) :=
    page_wrap_id _ hth0 (by linarith)
  have hthetaeq : (metripletic_page_evolution goldenB 256 0
      (allocPage goldenB 0 100)).theta =
      1/10 + compute_thermal_viscosity goldenB (1/10) * (PIq - 1/10) *
        (1/100) := by
    rw [metripletic_page_evolution_eq]
    dsimp only
    rw [hA, hwrap]
  have hstateeq : (metripletic_page_evolution goldenB 256 0
      (allocPage goldenB 0 100)).state = MEM_EMPTY := by
    rw [metripletic_page_evolution_eq]
    dsimp only
    rw [hA, hwrap, compute_O_n_for_page_zero]
    unfold project_memory_state
    rw [if_neg (show ¬ (1/10 + compute_thermal_viscosity goldenB (1/10) *
        (PIq - 1/10) * (1/100) > 5 * PIq / 4) by
      intro hcon
      linarith)]
    rw [if_neg (show ¬ (1/10 + compute_thermal_viscosity goldenB (1/10) *
        (PIq - 1/10) * (1/100) > 3 * PIq / 4 ∧ |(0:ℚ)| > 3/2) from
      fun hcon => absurd hcon.2 (by norm_num))]
    rw [if_neg (show ¬ (1/10 + compute_thermal_viscosity goldenB (1/10) *
        (PIq - 1/10) * (1/100) > PIq / 4 ∧ |(0:ℚ)| > 1/2) from
      fun hcon => absurd hcon.2 (by norm_num))]
  have hsizeeq : (metripletic_page_evolution goldenB 256 0
      (allocPage goldenB 0 100)).size = 100 := by
    show (if 100 > PAGE_SIZE then PAGE_SIZE else 100) = 100
    norm_num [PAGE_SIZE]
  have htp : timestep_page goldenB 256 0 (allocPage goldenB 0 100) =
      (metripletic_page_evolution goldenB 256 0 (allocPage goldenB 0 100),
        false) := by
    unfold timestep_page
    rw [if_pos (show (allocPage goldenB 0 100).state ≠ MEM_EMPTY by
      simp [allocPage])]
    rw [if_neg (show ¬ ((metripletic_page_evolution goldenB 256 0
        (allocPage goldenB 0 100)).state = MEM_EVAPORATING ∧
        (metripletic_page_evolution goldenB 256 0
          (allocPage goldenB 0 100)).theta > 2 * PIq - 1/10) from
      fun hcon => by rw [hstateeq] at hcon; exact absurd hcon.1 (by simp))]
  refine ⟨?_, ?_, hstateeq, hsizeeq, htp⟩
  · rw [hthetaeq]
    linarith
  · rw [hthetaeq]
    exact hth1

/-- Definitional shape of the post-tick metric determinant. -/
theorem memory_timestep_det (b : MathB) (m : MemoryManager) (t : ℕ) :
    (memory_timestep b m t).metric_determinant =
      1 + (1/10) * (if (memory_timestep_phase1 b m).allocated_pages > 0 then
        (∑ i ∈ Finset.range (memory_timestep_phase1 b m).allocated_pages,
          (((memory_timestep_phase1 b m).pages i).size : ℚ) / (PAGE_SIZE : ℚ) *
          (1 + b.sin ((memory_timestep_phase1 b m).pages i).theta)) /
          (((memory_timestep_phase1 b m).allocated_pages : ℚ)) else 0) := rfl

/-- The metric determinant the spec describes: `1 + λ·mean(density)` with the
mean of `density(i) = (size/pageSize)·(1 + sin θ)` taken over the *non-Empty*
records (`0` when none), written from the spec's words. -/
def specMetricDeterminant (b : MathB) (m : MemoryManager) : ℚ :=
1 + (1/10) * (if (occupiedSet m).card = 0 then 0
  else (∑ i ∈ occupiedSet m,
    ((m.pages i).size : ℚ) / (PAGE_SIZE : ℚ) * (1 + b.sin (m.pages i).theta)) /
    ((occupiedSet m).card : ℚ))

/-- C8 counterexample: allocate one 100-byte page from the fresh pool, then
tick.  The tick's re-projection empties the page (its `O_n` is 0) but leaves
the occupied counter at 1, so after the tick there are *no* non-Empty records
— the spec's determinant formula gives exactly 1 — while the code's geometry
loop still sums the counter-prefix slot 0 (size 100, nonnegative sine) and
stores a determinant strictly greater than 1. -/
theorem C8_counterexample :
    (occupiedSet (memory_timestep goldenB
      (allocIter goldenB (fun _ => 100) 1) 0)).card = 0 ∧
    specMetricDeterminant goldenB (memory_timestep goldenB
      (allocIter goldenB (fun _ => 100) 1) 0) = 1 ∧
    1 < (memory_timestep goldenB
      (allocIter goldenB (fun _ => 100) 1) 0).metric_determinant := by
  obtain ⟨ht, ha, hp⟩ := allocIter_spec goldenB (fun _ => 100) 1 (by omega)
  have hpg0 : (allocIter goldenB (fun _ => 100) 1).pages 0 =
      allocPage goldenB 0 100 := by
    rw [hp 0, if_pos (by omega)]
  obtain ⟨hth_lo, hth_hi, hstate, hsize, htp⟩ := alloc_tick_page0
  have h3 : (3:ℚ) < PIq := by norm_num [PIq]
  have hm1p0 : (memory_timestep_phase1 goldenB
      (allocIter goldenB (fun _ => 100) 1)).pages 0 =
      metripletic_page_evolution goldenB 256 0 (allocPage goldenB 0 100) := by
    rw [memory_timestep_phase1_pages, ht, if_pos (show (0:ℕ) < 256 by omega),
      hpg0, htp]
  have hm1pj : ∀ j, 1 ≤ j →
      (memory_timestep_phase1 goldenB
        (allocIter goldenB (fun _ => 100) 1)).pages j =
      memory_init.pages j := by
    intro j hj
    rw [memory_timestep_phase1_pages, ht]
    by_cases hlt : j < 256
    · rw [if_pos hlt, hp j, if_neg (by omega),
        timestep_page_empty goldenB 256 j _ (memory_init_pages_state j)]
    · rw [if_neg hlt, hp j, if_neg (by omega)]
  have hcard : occupiedSet (memory_timestep goldenB
      (allocIter goldenB (fun _ => 100) 1) 0) = ∅ := by
    unfold occupiedSet
    rw [Finset.filter_eq_empty_iff]
    intro j hj
    simp only [ne_eq, not_not]
    rw [memory_timestep_pages]
    rcases Nat.eq_zero_or_pos j with rfl | hjpos
    · rw [hm1p0]
      exact hstate
    · rw [hm1pj j hjpos]
      exact memory_init_pages_state j
  have hc0 : (occupiedSet (memory_timestep goldenB
      (allocIter goldenB (fun _ => 100) 1) 0)).card = 0 := by
    rw [hcard]
    rfl
  have halloc1 : (memory_timestep_phase1 goldenB
      (allocIter goldenB (fun _ => 100) 1)).allocated_pages = 1 := by
    have hflags : ∀ i, i < 256 →
        (timestep_page goldenB
          (allocIter goldenB (fun _ => 100) 1).total_pages i
          ((allocIter goldenB (fun _ => 100) 1).pages i)).2 = false := by
      intro i hi
      rw [ht]
      rcases Nat.eq_zero_or_pos i with rfl | hipos
      · rw [hpg0, htp]
      · rw [hp i, if_neg (by omega),
          timestep_page_empty goldenB 256 i _ (memory_init_pages_state i)]
    show ((List.range (allocIter goldenB (fun _ => 100) 1).total_pages).foldl
      (phase1Step goldenB) (allocIter goldenB (fun _ => 100) 1)).allocated_pages
      = 1
    rw [ht]
    exact (phase1_foldl_alloc goldenB
      (allocIter goldenB (fun _ => 100) 1) 256 hflags).trans ha
  have hsin0 : 0 ≤ goldenB.sin ((metripletic_page_evolution goldenB 256 0
      (allocPage goldenB 0 100)).theta) := by
    show 0 ≤ golden_sin ((metripletic_page_evolution goldenB 256 0
      (allocPage goldenB 0 100)).theta)
    generalize hX : (metripletic_page_evolution goldenB 256 0
      (allocPage goldenB 0 100)).theta = X at hth_lo hth_hi ⊢
    rw [golden_sin_closed,
      normalize_angle_of_mem _ (by linarith) (by linarith)]
    have hXX : X * X ≤ (11/100) * (11/100) :=
      mul_le_mul hth_hi hth_hi (by linarith) (by norm_num)
    exact sinPoly_nonneg (by linarith) (by linarith)
  refine ⟨hc0, ?_, ?_⟩
  · unfold specMetricDeterminant
    rw [if_pos hc0]
    norm_num
  · rw [memory_timestep_det, halloc1,
      if_pos (show (0:ℕ) < 1 by norm_num), Finset.sum_range_one, hm1p0, hsize]
    have hps : ((PAGE_SIZE : ℕ) : ℚ) = 4096 := by norm_num [PAGE_SIZE]
    rw [hps]
    generalize hS : goldenB.sin ((metripletic_page_evolution goldenB 256 0
      (allocPage goldenB 0 100)).theta) = s at hsin0 ⊢
    push_cast
    linarith

/-- C8 amended: after a tick, `centroid_z` and `total_entropy` do follow the
spec (mean angle over non-Empty records over `2π`; entropy summed over
non-Empty records), but the `global_theta` and `total_viscosity` means divide
by the *occupied counter* `allocated_pages` (not the number of non-Empty
records), the metric determinant averages the density over the counter-prefix
slots `i < allocated_pages` regardless of their lifecycle state, and the
curvature divides by the counter (guarded), not by the non-Empty count. -/
theorem C8_aggregates_amended (b : MathB) (m : MemoryManager) (t : ℕ) :
    (memory_timestep b m t).centroid_z =
      compute_centroid_z (memory_timestep_phase1 b m) ∧
    (memory_timestep b m t).total_entropy =
      ∑ i ∈ occupiedSet (memory_timestep_phase1 b m),
        ((memory_timestep_phase1 b m).pages i).entropy ∧
    (memory_timestep b m t).global_theta =
      (if (memory_timestep_phase1 b m).allocated_pages > 0 then
        (∑ i ∈ occupiedSet (memory_timestep_phase1 b m),
          ((memory_timestep_phase1 b m).pages i).theta) /
          ((memory_timestep_phase1 b m).allocated_pages : ℚ)
      else ∑ i ∈ occupiedSet (memory_timestep_phase1 b m),
        ((memory_timestep_phase1 b m).pages i).theta) ∧
    (memory_timestep b m t).total_viscosity =
      (if (memory_timestep_phase1 b m).allocated_pages > 0 then
        (∑ i ∈ occupiedSet (memory_timestep_phase1 b m),
          ((memory_timestep_phase1 b m).pages i).thermal_viscosity) /
          ((memory_timestep_phase1 b m).allocated_pages : ℚ)
      else ∑ i ∈ occupiedSet (memory_timestep_phase1 b m),
        ((memory_timestep_phase1 b m).pages i).thermal_viscosity) ∧
    (memory_timestep b m t).metric_determinant =
      1 + (1/10) * (if (memory_timestep_phase1 b m).allocated_pages > 0 then
        (∑ i ∈ Finset.range (memory_timestep_phase1 b m).allocated_pages,
          (((memory_timestep_phase1 b m).pages i).size : ℚ) / (PAGE_SIZE : ℚ) *
          (1 + b.sin ((memory_timestep_phase1 b m).pages i).theta)) /
          (((memory_timestep_phase1 b m).allocated_pages : ℚ)) else 0) ∧
    (memory_timestep b m t).curvature =
      ((memory_timestep b m t).metric_determinant - 1) /
        (if (memory_timestep_phase1 b m).allocated_pages > 0 then
          ((memory_timestep_phase1 b m).allocated_pages : ℚ) else 1) :=
  ⟨rfl, rfl, rfl, rfl, rfl, rfl⟩

/-- C3 counterexample for the offset parameter: the operator function takes
no `delta` — at `n = 0`, `phi = 0` it returns `cos(0) = 1`, which differs
from the spec formula `parity(n)·cos(π·phi·n + delta)` at the offset
`delta = π` (whose value is the implementation's cosine of `π`, strictly
below 1).  The offset exists only in the fixed-point variant, not in the
floating-point operator the kernel uses. -/
theorem C3_counterexample :
    golden_operator_compute_phi 0 0 = 1 ∧
    golden_cos (PIq * 0 * ((0:ℕ):ℚ) + PIq) < 1 ∧
    golden_operator_compute_phi 0 0 ≠
      (if (0:ℕ) % 2 = 0 then (1:ℚ) else -1) *
        golden_cos (PIq * 0 * ((0:ℕ):ℚ) + PIq) := by
  have hone : golden_operator_compute_phi 0 0 = 1 := by
    unfold golden_operator_compute_phi
    rw [if_neg (by omega)]
    have h0 : PIq * 0 * ((0:ℕ):ℚ) = 0 := by push_cast; ring
    rw [h0, golden_cos_closed,
      normalize_angle_of_mem 0 (by norm_num [PIq]) (by norm_num [PIq])]
    norm_num [cosPoly, Finset.sum_range_succ]
  have harg : PIq * 0 * ((0:ℕ):ℚ) + PIq = PIq := by push_cast; ring
  have hlt : golden_cos (PIq * 0 * ((0:ℕ):ℚ) + PIq) < 1 := by
    rw [harg, golden_cos_closed,
      normalize_angle_of_mem PIq (by linarith [piq_pos]) (le_refl PIq)]
    have hq := cosPoly_le_quartic (mul_self_nonneg PIq)
      (show PIq * PIq ≤ 12 by norm_num [PIq])
    have hnum : 1 - (PIq * PIq)/2 + (PIq * PIq)^2/24 - (PIq * PIq)^3/720 +
        (PIq * PIq)^4/40320 < 1 := by
      norm_num [PIq]
    linarith
  refine ⟨hone, hlt, ?_⟩
  rw [hone, if_pos (by omega), one_mul]
  exact ne_of_gt hlt
